import Mathlib

/- Formal model of the statechart interpreter core found in
sismic/interpreter/default.py: the event queue interface, transition
selection, conflict detection and ordering of selected transitions,
micro and macro step construction, history memory and stabilization.
The statechart model accessors, the code evaluator and the event queue
internals are external collaborators of that module and are modelled at
their documented interfaces.  Bound listeners and bound property
statecharts are not modelled: with none bound, the notification and
property-checking helpers of the source are no-ops. -/

namespace Sismic

/-- Kind of a statechart state, as discriminated by the isinstance
checks of the interpreter.  Compound states carry their optional
initial child, history states carry their default memory value. -/
inductive StateKind where
  | atomic
  | final
  | orthogonal
  | compound (initial : Option String)
  | shallowHistory (memory : String)
  | deepHistory (memory : String)
deriving DecidableEq

/-- Event policy tag.  The subclassing used by sismic (Event,
InternalEvent, DelayedEvent, DelayedInternalEvent, MetaEvent) is
modelled by a kind tag; delayed kinds carry their delay. -/
inductive EventKind where
  | external
  | internal
  | delayedExternal (delay : Int)
  | delayedInternal (delay : Int)
  | metaEv
deriving DecidableEq

/-- An event: a name together with its policy tag.  Event payload data
is not inspected by the step engine and is omitted. -/
structure Event where
  name : String
  kind : EventKind
deriving DecidableEq

/-- Counterpart of isinstance(event, InternalEvent): delayed internal
events are internal events as well. -/
def Event.isInternal (e : Event) : Bool :=
  match e.kind with
  | .internal => true
  | .delayedInternal _ => true
  | _ => false

/-- Counterpart of isinstance(event, MetaEvent). -/
def Event.isMeta (e : Event) : Bool :=
  match e.kind with
  | .metaEv => true
  | _ => false

/-- Delay carried by a delayed event; 0 for non-delayed events, exactly
like getattr(event, 'delay', 0). -/
def Event.delay (e : Event) : Int :=
  match e.kind with
  | .delayedExternal d => d
  | .delayedInternal d => d
  | _ => 0

/-- A transition of the statechart model: source state, optional target
(absent means internal transition), optional triggering event name
(absent means eventless), optional guard, an integer priority and an
optional action. -/
structure Transition where
  source : String
  target : Option String
  event : Option String
  guard : Option String
  priority : Int
  action : Option String
deriving DecidableEq

/-- Error kinds surfaced by the interpreter core
(sismic.exceptions). -/
inductive ExecError where
  | invalidInternalEvent
  | invalidDelay
  | invalidEmittedEvent
  | nonDeterminism
  | conflictingTransitions
  | preconditionFailed
  | postconditionFailed
  | invariantFailed
deriving DecidableEq

/-- An entry of the event queue: scheduled time, monotone insertion
sequence number, and the event itself. -/
structure QueueEntry where
  time : Int
  seq : Nat
  event : Event
deriving DecidableEq

/-- Modelled from the spec: the event queue
(sismic/interpreter/queue.py is not among the analysed sources) is a
min-priority structure keyed on (scheduled time, insertion sequence),
with a monotone insertion counter as stable tie-break. -/
structure EventQueue where
  entries : List QueueEntry
  counter : Nat
deriving DecidableEq

/-- Strict ordering of queue entries by (scheduled time, insertion
sequence). -/
def entryLt (a b : QueueEntry) : Bool :=
  decide (a.time < b.time) || (decide (a.time = b.time) && decide (a.seq < b.seq))

/-- Modelled from the spec: peek returns the earliest entry, ties
broken by insertion order. -/
def EventQueue.firstEntry? (q : EventQueue) : Option QueueEntry :=
  q.entries.foldl
    (fun acc e =>
      match acc with
      | none => some e
      | some m => if entryLt e m then some e else some m)
    none

/-- Modelled from the spec: pop removes the earliest entry. -/
def EventQueue.pop (q : EventQueue) : EventQueue :=
  match q.firstEntry? with
  | none => q
  | some m => { q with entries := q.entries.erase m }

/-- Modelled from the spec: push schedules an event at time + delay
(delay is 0 for non-delayed events); a negative delay on a delayed
event is rejected with an InvalidDelay error.  The insertion counter
increases monotonically. -/
def EventQueue.push (q : EventQueue) (time : Int) (event : Event) : Except ExecError EventQueue :=
  if event.delay < 0 then .error .invalidDelay
  else .ok { entries := q.entries ++ [⟨time + event.delay, q.counter, event⟩],
             counter := q.counter + 1 }

/-- A micro step: optional consumed event, optional transition, entered
and exited state names, and the events sent while applying it. -/
structure MicroStep where
  event : Option Event
  transition : Option Transition
  enteredStates : List String
  exitedStates : List String
  sentEvents : List Event
deriving DecidableEq

/-- MicroStep constructor with the default field values of the source
(no sent events). -/
def microStep (event : Option Event) (transition : Option Transition)
    (entered exited : List String) : MicroStep :=
  ⟨event, transition, entered, exited, []⟩

/-- A macro step: the time at which it was computed and its micro
steps. -/
structure MacroStep where
  time : Int
  steps : List MicroStep
deriving DecidableEq

/-- Modelled from the spec: the convenience projection of a macro step
onto its consumed event (the event of its first micro step, if any),
as exposed by the sismic model package. -/
def MacroStep.event (m : MacroStep) : Option Event :=
  m.steps.head?.bind (fun s => s.event)

/-- Modelled from the spec: the read-only statechart model accessor
interface (sismic.model is not among the analysed sources).  Ancestors
exclude the state itself and end with the root; descendants are in
pre-order; leafFor returns the states of a set with no child in the
set. -/
structure Statechart where
  root : String
  stateKind : String → StateKind
  depthFor : String → Nat
  parentFor : String → Option String
  childrenFor : String → List String
  ancestorsFor : String → List String
  descendantsFor : String → List String
  leastCommonAncestor : String → String → String
  leafFor : List String → List String
  transitions : List Transition

/-- Object whose contract conditions are evaluated: a state (by name)
or a transition. -/
inductive ContractObj where
  | state (name : String)
  | trans (t : Transition)

/-- Contract condition kinds. -/
inductive CondType where
  | pre
  | post
  | inv

/-- Modelled from the spec: the opaque evaluator interface.  Guards,
actions and contract predicates run through it; actions and entry and
exit handlers return the events they emit. -/
structure Evaluator where
  evaluateGuard : Transition → Option Event → Bool
  executeAction : Transition → Option Event → List Event
  executeOnEntry : String → List Event
  executeOnExit : String → List Event
  evaluatePreconditions : ContractObj → Option Event → List String
  evaluatePostconditions : ContractObj → Option Event → List String
  evaluateInvariants : ContractObj → Option Event → List String

/-- The interpreter state: statechart, evaluator, contract flag,
initialization flag, the clock reading, the time snapshot taken at the
start of the latest macro step, the history memory, the active
configuration and the event queue. -/
structure Interp where
  statechart : Statechart
  evaluator : Evaluator
  ignoreContract : Bool
  initialized : Bool
  clock : Int
  time : Int
  memory : List (String × List String)
  configuration : List String
  queue : EventQueue

/-- Stable insertion of x into a list: x is placed after every element
y with le y x and before the first strictly greater element.  Used to
model the stable sorts of Python. -/
def stableInsert {α : Type} (le : α → α → Bool) (x : α) : List α → List α
  | [] => [x]
  | y :: ys => if le y x then y :: stableInsert le x ys else x :: y :: ys

/-- Stable sort modelling Python sorted and list.sort: elements are
inserted left to right, so elements that compare equal keep their
original relative order. -/
def sortBy {α : Type} (le : α → α → Bool) (l : List α) : List α :=
  l.foldl (fun acc x => stableInsert le x acc) []

/-- Insert a key into a strictly ascending list of distinct keys,
keeping it strictly ascending and duplicate-free. -/
def insertKeyAsc {β : Type} [DecidableEq β] (lt : β → β → Bool) (k : β) : List β → List β
  | [] => [k]
  | k2 :: ks =>
    if k = k2 then k2 :: ks
    else if lt k k2 then k :: k2 :: ks
    else k2 :: insertKeyAsc lt k ks

/-- The distinct keys of a list, in ascending order. -/
def sortedKeys {β : Type} [DecidableEq β] (lt : β → β → Bool) : List β → List β
  | [] => []
  | k :: ks => insertKeyAsc lt k (sortedKeys lt ks)

/-- Modelled from the spec: sorted_groupby (sismic.utilities, not among
the analysed sources) sorts a list by a key (optionally in reverse key
order) and yields the groups of equal keys in that order; the sort is
stable, so each group lists its elements in their original relative
order. -/
def sortedGroupby {α β : Type} [DecidableEq β] (key : α → β) (lt : β → β → Bool)
    (reverse : Bool) (l : List α) : List (β × List α) :=
  let ks := sortedKeys lt (l.map key)
  let ks := if reverse then ks.reverse else ks
  ks.map (fun k => (k, l.filter (fun x => decide (key x = k))))

/-- Strict order on Int used as a grouping key order. -/
def intLt (a b : Int) : Bool := decide (a < b)

/-- Strict order on Bool (False before True, as in Python). -/
def boolLt (a b : Bool) : Bool := !a && b

/-- Strict lexicographic order on character lists, by code point. -/
def charListLt : List Char → List Char → Bool
  | [], [] => false
  | [], _ :: _ => true
  | _ :: _, [] => false
  | a :: as, b :: bs => decide (a < b) || (decide (a = b) && charListLt as bs)

/-- Strict lexicographic order on String, by code point, as used by
Python string comparison. -/
def strLt (a b : String) : Bool := charListLt a.data b.data

/-- Lexicographic less-or-equal on String. -/
def strLe (a b : String) : Bool := strLt a b || decide (a = b)

/-- Comparison by (depth ascending, name ascending). -/
def depthNameLe (sc : Statechart) (a b : String) : Bool :=
  decide (sc.depthFor a < sc.depthFor b) ||
    (decide (sc.depthFor a = sc.depthFor b) && strLe a b)

/-- Comparison by (depth descending, name ascending), i.e. by the key
(-depth, name) ascending. -/
def negDepthNameLe (sc : Statechart) (a b : String) : Bool :=
  decide ((-(sc.depthFor a : Int)) < -(sc.depthFor b : Int)) ||
    (decide ((-(sc.depthFor a : Int)) = -(sc.depthFor b : Int)) && strLe a b)

/-- Comparison of transitions by the key (-depth(source), source name)
ascending, used to order selected transitions. -/
def transOrderLe (sc : Statechart) (a b : Transition) : Bool :=
  negDepthNameLe sc a.source b.source

/-- Counterpart of _select_event: return the next available event if
any, that is the earliest queued event whose scheduled time is not
later than the interpreter time snapshot; pop it when consume is set.
Returns the event (or none) and the resulting queue. -/
def selectEvent (q : EventQueue) (time : Int) (consume : Bool) : Option Event × EventQueue :=
  match q.firstEntry? with
  | some entry =>
    if entry.time ≤ time then (some entry.event, if consume then q.pop else q)
    else (none, q)
  | none => (none, q)

/-- A transition is triggerable by the peeked event when its event
field is absent or equals the event name. -/
def transitionTriggered (event : Option Event) (t : Transition) : Bool :=
  t.event.isNone || t.event == event.map (fun e => e.name)

/-- A transition fires when it has no guard or its guard evaluates to
true on the exposed event. -/
def guardPasses (ev : Evaluator) (exposed : Option Event) (t : Transition) : Bool :=
  t.guard.isNone || ev.evaluateGuard t exposed

/-- Walk the priority groups of one source state in descending
priority order; the first group with at least one passing guard
contributes all its passing transitions, lower groups are ignored. -/
def selectFromPriorityGroups (ev : Evaluator) (exposed : Option Event) :
    List (Int × List Transition) → List Transition
  | [] => []
  | (_, ts) :: rest =>
    let passing := ts.filter (guardPasses ev exposed)
    if passing.isEmpty then selectFromPriorityGroups ev exposed rest else passing

/-- Transitions selected from the candidate transitions of one source
state: all guard-passing transitions of the highest priority class
that has at least one passing guard. -/
def selectForSource (ev : Evaluator) (exposed : Option Event) (ts : List Transition) :
    List Transition :=
  selectFromPriorityGroups ev exposed (sortedGroupby (fun t => t.priority) intLt true ts)

/-- Accumulator of _select_transitions: transitions selected so far and
source states to be ignored from now on. -/
structure SelState where
  selected : List Transition
  ignored : List String

/-- Process the candidate transitions of one source state: skip it when
shadowed, otherwise select by priority and, when anything was selected,
shadow the source and its ancestors (inner-first) or descendants. -/
def processSource (sc : Statechart) (ev : Evaluator) (exposed : Option Event)
    (innerFirst : Bool) (st : SelState) (source : String) (ts : List Transition) : SelState :=
  if st.ignored.contains source then st
  else
    let found := selectForSource ev exposed ts
    if found.isEmpty then st
    else
      { selected := st.selected ++ found,
        ignored := st.ignored ++
          (if innerFirst then sc.ancestorsFor source else sc.descendantsFor source) ++
          [source] }

/-- Process one depth group: its transitions grouped by source state in
ascending name order. -/
def processDepthGroup (sc : Statechart) (ev : Evaluator) (exposed : Option Event)
    (innerFirst : Bool) (st : SelState) (ts : List Transition) : SelState :=
  (sortedGroupby (fun t => t.source) strLt false ts).foldl
    (fun st p => processSource sc ev exposed innerFirst st p.fst p.snd) st

/-- Process one event group (eventless or event-triggered candidates):
group by source depth, deepest first under inner-first semantics.  The
event is exposed to guards only in the event-triggered group. -/
def processEventGroup (sc : Statechart) (ev : Evaluator) (event : Option Event)
    (innerFirst : Bool) (st : SelState) (hasEvent : Bool) (ts : List Transition) : SelState :=
  let exposed := if hasEvent then event else none
  (sortedGroupby (fun t => (sc.depthFor t.source : Int)) intLt innerFirst ts).foldl
    (fun st p => processDepthGroup sc ev exposed innerFirst st p.snd) st

/-- Counterpart of _select_transitions: select the transitions
triggered by the given peeked event in the given states, prioritizing
eventless transitions and following inner-first/source state
semantics.  Once a group has selected transitions, later groups are
discarded. -/
def selectTransitions (sc : Statechart) (ev : Evaluator) (event : Option Event)
    (states : List String) (eventlessFirst : Bool) (innerFirst : Bool) : List Transition :=
  let considered := sc.transitions.filter
    (fun t => states.contains t.source && transitionTriggered event t)
  ((sortedGroupby (fun t => t.event.isSome) boolLt (!eventlessFirst) considered).foldl
      (fun (st : SelState) p =>
        if st.selected.isEmpty then processEventGroup sc ev event innerFirst st p.fst p.snd
        else st)
      (⟨[], []⟩ : SelState)).selected

/-- The pairs visited by itertools.combinations(l, 2), in order. -/
def pairs {α : Type} : List α → List (α × α)
  | [] => []
  | x :: xs => xs.map (fun y => (x, y)) ++ pairs xs

/-- The highest ancestor of source that is still below lca: the last
ancestor visited before reaching lca (or source itself when its first
ancestor is lca). -/
def lastBeforeLcaAux (lca : String) (acc : String) : List String → String
  | [] => acc
  | s :: rest => if s = lca then acc else lastBeforeLcaAux lca s rest

/-- Counterpart of the last_before_lca computation of the source. -/
def lastBeforeLca (lca source : String) (ancestors : List String) : String :=
  lastBeforeLcaAux lca source ancestors

/-- Conflict check of _sort_transitions for one transition of a pair
whose sources have the orthogonal state lca as least common ancestor:
a present target must be the transition's region root under lca or one
of its descendants. -/
def conflictCheck (sc : Statechart) (lca : String) (t : Transition) : Option ExecError :=
  let h := lastBeforeLca lca t.source (sc.ancestorsFor t.source)
  match t.target with
  | none => none
  | some tgt =>
    if tgt = h || (sc.descendantsFor h).contains tgt then none
    else some .conflictingTransitions

/-- Checks of _sort_transitions for one pair of selected transitions:
their least common ancestor must be an orthogonal state, otherwise
NonDeterminismError; under an orthogonal lca, each transition of the
pair must stay in its region, otherwise ConflictingTransitionsError. -/
def checkPair (sc : Statechart) (t1 t2 : Transition) : Option ExecError :=
  let lca := sc.leastCommonAncestor t1.source t2.source
  match sc.stateKind lca with
  | .orthogonal =>
    match conflictCheck sc lca t1 with
    | some e => some e
    | none => conflictCheck sc lca t2
  | _ => some .nonDeterminism

/-- Counterpart of _sort_transitions: when more than one transition was
selected, every pair is checked for non-determinism and conflicts, and
the transitions are returned sorted by (-depth(source), source name). -/
def sortTransitions (sc : Statechart) (transitions : List Transition) :
    Except ExecError (List Transition) :=
  if 1 < transitions.length then
    match (pairs transitions).findSome? (fun p => checkPair sc p.fst p.snd) with
    | some e => .error e
    | none => .ok (sortBy (transOrderLe sc) transitions)
  else .ok transitions

/-- Counterpart of one iteration of _create_steps: build the micro step
for one transition.  An internal transition (no target) yields a step
with only the event and the transition; otherwise the exit set is the
active descendants of the region root below the lca in reverse
pre-order followed by the region root itself, and the entry set is the
path from below the lca down to the target. -/
def createStepForTransition (sc : Statechart) (cfg : List String) (event : Option Event)
    (t : Transition) : MicroStep :=
  match t.target with
  | none => microStep event (some t) [] []
  | some target =>
    let lca := sc.leastCommonAncestor t.source target
    let lastBefore := lastBeforeLca lca t.source (sc.ancestorsFor t.source)
    let exited :=
      ((sc.descendantsFor lastBefore).reverse.filter (fun d => cfg.contains d)) ++
        (if cfg.contains lastBefore then [lastBefore] else [])
    let entered :=
      ((sc.ancestorsFor target).takeWhile (fun s => decide (s ≠ lca))).reverse ++ [target]
    microStep event (some t) entered exited

/-- Counterpart of _create_steps: one micro step per transition, all
computed from the same configuration. -/
def createSteps (sc : Statechart) (cfg : List String) (event : Option Event)
    (transitions : List Transition) : List MicroStep :=
  transitions.map (createStepForTransition sc cfg event)

/-- The stabilization step produced by one leaf of the configuration,
if any: exit a final child of the root together with the root, enter
the memory of a history leaf, enter the children of an orthogonal
leaf, or enter the initial child of a compound leaf. -/
def stepForLeaf (sc : Statechart) (memory : List (String × List String))
    (leaf : String) : Option MicroStep :=
  match sc.stateKind leaf with
  | .final =>
    if sc.parentFor leaf = some sc.root then some (microStep none none [] [leaf, sc.root])
    else none
  | .shallowHistory m =>
    some (microStep none none
      (sortBy (depthNameLe sc) ((memory.lookup leaf).getD [m])) [leaf])
  | .deepHistory m =>
    some (microStep none none
      (sortBy (depthNameLe sc) ((memory.lookup leaf).getD [m])) [leaf])
  | .orthogonal =>
    if (sc.childrenFor leaf).isEmpty then none
    else some (microStep none none (sortBy strLe (sc.childrenFor leaf)) [])
  | .compound (some init) => some (microStep none none [init] [])
  | _ => none

/-- Counterpart of _create_stabilization_step: the stabilization leaves
of the configuration are visited by (depth descending, name ascending)
and the first one producing a step yields it. -/
def createStabilizationStep (sc : Statechart) (memory : List (String × List String))
    (names : List String) : Option MicroStep :=
  (sortBy (negDepthNameLe sc) (sc.leafFor names)).findSome? (stepForLeaf sc memory)

/-- Update the history memory mapping (a Python dict, modelled as an
association list read through its most recent binding). -/
def memSet (m : List (String × List String)) (k : String) (v : List String) :
    List (String × List String) :=
  (k, v) :: m

/-- History memorization on exit of a compound state: a deep history
child memorizes the active descendants of the compound, a shallow
history child memorizes its active direct children.  The intersection
of the copied active configuration with the relevant state set is
taken in the accessor's order. -/
def memorizeHistories (sc : Statechart) (active0 : List String)
    (memory : List (String × List String)) (name : String) :
    List (String × List String) :=
  match sc.stateKind name with
  | .compound _ =>
    (sc.childrenFor name).foldl
      (fun mem child =>
        match sc.stateKind child with
        | .deepHistory _ =>
          memSet mem child ((sc.descendantsFor name).filter (fun d => active0.contains d))
        | .shallowHistory _ =>
          memSet mem child ((sc.childrenFor name).filter (fun d => active0.contains d))
        | _ => mem)
      memory
  | _ => memory

/-- Counterpart of _evaluate_contract_conditions: nothing is checked
when contracts are ignored; otherwise the first unsatisfied condition
raises the error of the matching kind. -/
def contractCheck (I : Interp) (obj : ContractObj) (ct : CondType)
    (event : Option Event) : Option ExecError :=
  if I.ignoreContract then none
  else
    let unsat :=
      match ct with
      | .pre => I.evaluator.evaluatePreconditions obj event
      | .post => I.evaluator.evaluatePostconditions obj event
      | .inv => I.evaluator.evaluateInvariants obj event
    match unsat, ct with
    | [], _ => none
    | _ :: _, .pre => some .preconditionFailed
    | _ :: _, .post => some .postconditionFailed
    | _ :: _, .inv => some .invariantFailed

/-- Exit phase of _apply_step: for each exited state in order, run its
exit action, memorize history, remove it from the configuration and
check its postconditions.  Returns the updated interpreter, the events
emitted so far and the first error, if any. -/
def applyExits (active0 : List String) (stepEvent : Option Event) :
    Interp → List String → Interp × List Event × Option ExecError
  | I, [] => (I, [], none)
  | I, name :: rest =>
    let sent1 := I.evaluator.executeOnExit name
    let I1 : Interp :=
      { I with memory := memorizeHistories I.statechart active0 I.memory name,
               configuration := I.configuration.erase name }
    match contractCheck I1 (.state name) .post stepEvent with
    | some e => (I1, sent1, some e)
    | none =>
      let r := applyExits active0 stepEvent I1 rest
      (r.fst, sent1 ++ r.snd.fst, r.snd.snd)

/-- Transition phase of _apply_step: preconditions and invariants,
action, postconditions and invariants. -/
def applyTransitionPhase (I : Interp) (step : MicroStep) :
    Interp × List Event × Option ExecError :=
  match step.transition with
  | none => (I, [], none)
  | some t =>
    match contractCheck I (.trans t) .pre step.event with
    | some e => (I, [], some e)
    | none =>
      match contractCheck I (.trans t) .inv step.event with
      | some e => (I, [], some e)
      | none =>
        let sent := I.evaluator.executeAction t step.event
        match contractCheck I (.trans t) .post step.event with
        | some e => (I, sent, some e)
        | none =>
          match contractCheck I (.trans t) .inv step.event with
          | some e => (I, sent, some e)
          | none => (I, sent, none)

/-- Entry phase of _apply_step: for each entered state in order, check
its preconditions, run its entry action and add it to the
configuration. -/
def applyEntries (stepEvent : Option Event) :
    Interp → List String → Interp × List Event × Option ExecError
  | I, [] => (I, [], none)
  | I, name :: rest =>
    match contractCheck I (.state name) .pre stepEvent with
    | some e => (I, [], some e)
    | none =>
      let sent1 := I.evaluator.executeOnEntry name
      let I1 : Interp :=
        { I with configuration :=
            if I.configuration.contains name then I.configuration
            else I.configuration ++ [name] }
      let r := applyEntries stepEvent I1 rest
      (r.fst, sent1 ++ r.snd.fst, r.snd.snd)

/-- Counterpart of _raise_event for one event emitted by an action: an
internal event is pushed onto the queue at the current time snapshot
(and mirrored to bound listeners, none being modelled); a meta-event is
only propagated to bound property statecharts (none being modelled);
any other event is rejected. -/
def raiseEvent (I : Interp) (e : Event) : Interp × Option ExecError :=
  if e.isInternal then
    match I.queue.push I.time e with
    | .error err => (I, some err)
    | .ok q1 => ({ I with queue := q1 }, none)
  else if e.isMeta then (I, none)
  else (I, some .invalidEmittedEvent)

/-- Raise every event collected while applying a micro step, in
order. -/
def raiseEvents : Interp → List Event → Interp × Option ExecError
  | I, [] => (I, none)
  | I, e :: rest =>
    let r := raiseEvent I e
    match r.snd with
    | some err => (r.fst, some err)
    | none => raiseEvents r.fst rest

/-- Counterpart of _apply_step: exits, transition action, entries, then
raising of the collected events; the returned micro step carries the
sent events.  Errors propagate without rolling back the state changes
already applied. -/
def applyStep (I : Interp) (step : MicroStep) : Interp × Except ExecError MicroStep :=
  let active0 := I.configuration
  let r1 := applyExits active0 step.event I step.exitedStates
  match r1.snd.snd with
  | some err => (r1.fst, .error err)
  | none =>
    let r2 := applyTransitionPhase r1.fst step
    match r2.snd.snd with
    | some err => (r2.fst, .error err)
    | none =>
      let r3 := applyEntries step.event r2.fst step.enteredStates
      match r3.snd.snd with
      | some err => (r3.fst, .error err)
      | none =>
        let sent := r1.snd.fst ++ r2.snd.fst ++ r3.snd.fst
        let r4 := raiseEvents r3.fst sent
        match r4.snd with
        | some err => (r4.fst, .error err)
        | none => (r4.fst, .ok { step with sentEvents := sent })

/-- Counterpart of _stabilize: compute and apply stabilization steps
until none is produced.  The source loop is unbounded; fuel bounds the
number of iterations of the model. -/
def stabilize : Nat → Interp → Interp × Except ExecError (List MicroStep)
  | 0, I => (I, .ok [])
  | fuel + 1, I =>
    match createStabilizationStep I.statechart I.memory I.configuration with
    | none => (I, .ok [])
    | some step =>
      let r := applyStep I step
      match r.snd with
      | .error e => (r.fst, .error e)
      | .ok executed =>
        let r2 := stabilize fuel r.fst
        match r2.snd with
        | .error e => (r2.fst, .error e)
        | .ok steps => (r2.fst, .ok (executed :: steps))

/-- The execution loop of execute_once: apply each computed micro step
and stabilize after it, concatenating the executed steps. -/
def execSteps (fuel : Nat) : Interp → List MicroStep → Interp × Except ExecError (List MicroStep)
  | I, [] => (I, .ok [])
  | I, s :: rest =>
    let r := applyStep I s
    match r.snd with
    | .error e => (r.fst, .error e)
    | .ok executed =>
      let r2 := stabilize fuel r.fst
      match r2.snd with
      | .error e => (r2.fst, .error e)
      | .ok stabSteps =>
        let r3 := execSteps fuel r2.fst rest
        match r3.snd with
        | .error e => (r3.fst, .error e)
        | .ok rest1 => (r3.fst, .ok (executed :: stabSteps ++ rest1))

/-- Invariant evaluation over the active states after the micro steps
of a macro step were applied. -/
def checkStateInvariants (I : Interp) (macroEvent : Option Event) :
    List String → Option ExecError
  | [] => none
  | name :: rest =>
    match contractCheck I (.state name) .inv macroEvent with
    | some e => some e
    | none => checkStateInvariants I macroEvent rest

/-- Counterpart of _compute_steps: the initial micro step when not yet
initialized; otherwise peek the next due event, select transitions,
and either produce nothing (no event, no transition), an empty event
consuming step (event without transition), or the micro steps of the
sorted selected transitions.  The consumed event is dropped when the
first sorted transition is eventless. -/
def computeSteps (I : Interp) : Interp × Except ExecError (Option (List MicroStep)) :=
  if I.initialized then
    let event := (selectEvent I.queue I.time false).fst
    let transitions := selectTransitions I.statechart I.evaluator event I.configuration true true
    if transitions.isEmpty then
      match event with
      | none => (I, .ok none)
      | some e => (I, .ok (some [microStep (some e) none [] []]))
    else
      match sortTransitions I.statechart transitions with
      | .error e => (I, .error e)
      | .ok sorted =>
        let event1 :=
          match sorted with
          | t0 :: _ => if t0.event.isNone then none else event
          | [] => event
        (I, .ok (some (createSteps I.statechart I.configuration event1 sorted)))
  else
    ({ I with initialized := true }, .ok (some [microStep none none [I.statechart.root] []]))

/-- Event consumption of execute_once: when the first computed micro
step carries an event, pop the due event from the queue (notifying the
event consumed meta-event, a no-op with no bound properties). -/
def consumeIfNeeded (I : Interp) (steps : List MicroStep) : Interp :=
  if (steps.head?.bind (fun s => s.event)).isSome then
    { I with queue := (selectEvent I.queue I.time true).snd }
  else I

/-- Counterpart of execute_once: snapshot the clock, compute the next
steps, consume the due event when the first computed micro step
carries one, apply the steps with stabilization after each of them,
and finally evaluate the state invariants over the active
configuration sorted by (depth, name). -/
def executeOnce (fuel : Nat) (I0 : Interp) : Interp × Except ExecError (Option MacroStep) :=
  let I : Interp := { I0 with time := I0.clock }
  let rc := computeSteps I
  match rc.snd with
  | .error e => (rc.fst, .error e)
  | .ok none => (rc.fst, .ok none)
  | .ok (some steps) =>
    let r := execSteps fuel (consumeIfNeeded rc.fst steps) steps
    match r.snd with
    | .error e => (r.fst, .error e)
    | .ok executed =>
      let mstep : MacroStep := { time := r.fst.time, steps := executed }
      match checkStateInvariants r.fst mstep.event
          (sortBy (depthNameLe r.fst.statechart) r.fst.configuration) with
      | some e => (r.fst, .error e)
      | none => (r.fst, .ok (some mstep))

/-- Argument of the public queue operation: an event name or an event
instance. -/
inductive QueueArg where
  | name (s : String)
  | ev (e : Event)
deriving DecidableEq

/-- A bare name is wrapped into a plain external event. -/
def toEvent : QueueArg → Event
  | .name s => ⟨s, .external⟩
  | .ev e => e

/-- Counterpart of the public queue operation: each argument in order
is rejected when it is an internal event, otherwise pushed onto the
external queue at the current clock time.  An error stops the loop,
leaving the previously pushed events queued. -/
def interpQueue (I : Interp) : List QueueArg → Interp × Option ExecError
  | [] => (I, none)
  | a :: rest =>
    let e := toEvent a
    if e.isInternal then (I, some .invalidInternalEvent)
    else
      match I.queue.push I.clock e with
      | .error err => (I, some err)
      | .ok q1 => interpQueue { I with queue := q1 } rest

/-- Derive the leafFor accessor from the children accessor: the states
of a set having no child in the set. -/
def leafForOf (children : String → List String) (names : List String) : List String :=
  names.filter (fun s => (children s).all (fun c => !(names.contains c)))

/-- An evaluator whose guards all pass, whose actions emit nothing and
whose contract conditions are all satisfied. -/
def trivialEvaluator : Evaluator :=
  { evaluateGuard := fun _ _ => true
    executeAction := fun _ _ => []
    executeOnEntry := fun _ => []
    executeOnExit := fun _ => []
    evaluatePreconditions := fun _ _ => []
    evaluatePostconditions := fun _ _ => []
    evaluateInvariants := fun _ _ => [] }

/-- Children of the orthogonal example chart: a compound root with an
orthogonal child O (regions A and B holding a1 and b1) and an atomic
child c. -/
def children2 : String → List String
  | "root" => ["O", "c"]
  | "O" => ["A", "B"]
  | "A" => ["a1"]
  | "B" => ["b1"]
  | _ => []

/-- Orthogonal example chart used to exercise _sort_transitions. -/
def chart2 : Statechart :=
  { root := "root"
    stateKind := fun s =>
      match s with
      | "root" => .compound (some "O")
      | "O" => .orthogonal
      | "A" => .compound (some "a1")
      | "B" => .compound (some "b1")
      | _ => .atomic
    depthFor := fun s =>
      match s with
      | "root" => 0
      | "O" => 1
      | "c" => 1
      | "A" => 2
      | "B" => 2
      | _ => 3
    parentFor := fun s =>
      match s with
      | "root" => none
      | "O" => some "root"
      | "c" => some "root"
      | "A" => some "O"
      | "B" => some "O"
      | "a1" => some "A"
      | "b1" => some "B"
      | _ => none
    childrenFor := children2
    ancestorsFor := fun s =>
      match s with
      | "O" => ["root"]
      | "c" => ["root"]
      | "A" => ["O", "root"]
      | "B" => ["O", "root"]
      | "a1" => ["A", "O", "root"]
      | "b1" => ["B", "O", "root"]
      | _ => []
    descendantsFor := fun s =>
      match s with
      | "root" => ["O", "A", "a1", "B", "b1", "c"]
      | "O" => ["A", "a1", "B", "b1"]
      | "A" => ["a1"]
      | "B" => ["b1"]
      | _ => []
    leastCommonAncestor := fun x y =>
      if x = y then x
      else
        match x, y with
        | "a1", "b1" => "O"
        | "b1", "a1" => "O"
        | "a1", "A" => "A"
        | "A", "a1" => "A"
        | "b1", "B" => "B"
        | "B", "b1" => "B"
        | "A", "B" => "O"
        | "B", "A" => "O"
        | _, _ => "root"
    leafFor := leafForOf children2
    transitions := [] }

/-- Transition from a1 to b1 on event e: it leaves its parallel region
A, crossing the boundary of region B. -/
def t1c : Transition := ⟨"a1", some "b1", some "e", none, 0, none⟩

/-- Transition from b1 to b1 on event e, staying in region B. -/
def t2c : Transition := ⟨"b1", some "b1", some "e", none, 0, none⟩

/-- Transition from c to c on event e; the least common ancestor of c
and a1 (or b1) is the compound root. -/
def t3c : Transition := ⟨"c", some "c", some "e", none, 0, none⟩

/-- Internal transition (no target) from a1 on event e. -/
def tIntc : Transition := ⟨"a1", none, some "e", none, 0, none⟩

/-- Transition from a1 to a1, staying in region A. -/
def tAc : Transition := ⟨"a1", some "a1", some "e", none, 0, none⟩

/-- Children of the witness chart: a compound root with three atomic
children. -/
def childrenW : String → List String
  | "rootW" => ["a", "b", "c"]
  | _ => []

/-- Eventless transition from a to b. -/
def tEl : Transition := ⟨"a", some "b", none, none, 0, none⟩

/-- Transition from a to c triggered by event x. -/
def tEv : Transition := ⟨"a", some "c", some "x", none, 0, none⟩

/-- Simple witness chart: compound root with children a, b and c, an
eventless transition a to b and an event-triggered transition a to
c. -/
def chartW : Statechart :=
  { root := "rootW"
    stateKind := fun s => if s = "rootW" then .compound (some "a") else .atomic
    depthFor := fun s => if s = "rootW" then 0 else 1
    parentFor := fun s => if s = "rootW" then none else some "rootW"
    childrenFor := childrenW
    ancestorsFor := fun s => if s = "rootW" then [] else ["rootW"]
    descendantsFor := fun s => if s = "rootW" then ["a", "b", "c"] else []
    leastCommonAncestor := fun x y => if x = y then x else "rootW"
    leafFor := leafForOf childrenW
    transitions := [tEl, tEv] }

/-- Interpreter over the witness chart: initialized, contracts
ignored, active states root and a, one external event x queued as due
at time 0. -/
def interpW : Interp :=
  { statechart := chartW
    evaluator := trivialEvaluator
    ignoreContract := true
    initialized := true
    clock := 0
    time := 0
    memory := []
    configuration := ["rootW", "a"]
    queue := ⟨[⟨0, 0, ⟨"x", .external⟩⟩], 1⟩ }

/-- The witness chart without any transition. -/
def chart9 : Statechart := { chartW with transitions := [] }

/-- Interpreter over the transition-free chart, with a due event
queued: the event can trigger nothing. -/
def interp9 : Interp := { interpW with statechart := chart9 }

/-- Children of the shallow history example chart. -/
def children5 : String → List String
  | "root5" => ["C"]
  | "C" => ["a", "b", "H"]
  | _ => []

/-- Shallow history example chart: a compound root holding a compound C
whose children are a (initial), b and a shallow history H defaulting
to a. -/
def chart5 : Statechart :=
  { root := "root5"
    stateKind := fun s =>
      match s with
      | "root5" => .compound (some "C")
      | "C" => .compound (some "a")
      | "H" => .shallowHistory "a"
      | _ => .atomic
    depthFor := fun s =>
      match s with
      | "root5" => 0
      | "C" => 1
      | _ => 2
    parentFor := fun s =>
      match s with
      | "root5" => none
      | "C" => some "root5"
      | _ => some "C"
    childrenFor := children5
    ancestorsFor := fun s =>
      match s with
      | "root5" => []
      | "C" => ["root5"]
      | _ => ["C", "root5"]
    descendantsFor := fun s =>
      match s with
      | "root5" => ["C", "a", "b", "H"]
      | "C" => ["a", "b", "H"]
      | _ => []
    leastCommonAncestor := fun x y => if x = y then x else "root5"
    leafFor := leafForOf children5
    transitions := [] }

/-- Candidate transitions of one source with two priority classes: a
priority 1 transition and two priority 2 transitions. -/
def ts4 : List Transition :=
  [⟨"s", some "x", none, none, 1, none⟩,
   ⟨"s", some "y", none, none, 2, none⟩,
   ⟨"s", some "z", none, some "g", 2, none⟩]

/-- The second queue extends the first: the original entries are
preserved in place and only new entries, all carrying fresh sequence
numbers, were appended.  In particular no original entry was popped. -/
def QueueExtends (q q1 : EventQueue) : Prop :=
  ∃ l, q1.entries = q.entries ++ l ∧ q.counter ≤ q1.counter ∧ ∀ en ∈ l, q.counter ≤ en.seq

deriving instance DecidableEq for Except

theorem stableInsert_perm {α : Type} (le : α → α → Bool) (x : α) :
    ∀ l : List α, (stableInsert le x l).Perm (x :: l) := by
  intro l
  induction l with
  | nil => simp [stableInsert]
  | cons y ys ih =>
    rw [stableInsert]
    split
    · exact (ih.cons y).trans (List.Perm.swap x y ys)
    · exact List.Perm.refl _

theorem sortBy_loop_perm {α : Type} (le : α → α → Bool) :
    ∀ (l acc : List α),
      (List.foldl (fun acc x => stableInsert le x acc) acc l).Perm (acc ++ l) := by
  intro l
  induction l with
  | nil => intro acc; simp
  | cons x xs ih =>
    intro acc
    simp only [List.foldl_cons]
    refine (ih (stableInsert le x acc)).trans ?_
    refine (((stableInsert_perm le x acc).append_right xs).trans ?_)
    exact List.perm_middle.symm

theorem sortBy_perm {α : Type} (le : α → α → Bool) (l : List α) : (sortBy le l).Perm l := by
  simpa [sortBy] using sortBy_loop_perm le l []

theorem pairwise_stableInsert {α : Type} (le : α → α → Bool)
    (htot : ∀ a b, le a b = true ∨ le b a = true)
    (htrans : ∀ a b c, le a b = true → le b c = true → le a c = true) (x : α) :
    ∀ l : List α, l.Pairwise (fun a b => le a b = true) →
      (stableInsert le x l).Pairwise (fun a b => le a b = true) := by
  intro l
  induction l with
  | nil => intro _; simp [stableInsert]
  | cons y ys ih =>
    intro hp
    rcases List.pairwise_cons.mp hp with ⟨hy, hys⟩
    rw [stableInsert]
    split
    case isTrue h =>
      refine List.pairwise_cons.mpr ⟨?_, ih hys⟩
      intro b hb
      rcases List.mem_cons.mp ((stableInsert_perm le x ys).mem_iff.mp hb) with hbx | hbys
      · exact hbx ▸ h
      · exact hy b hbys
    case isFalse h =>
      have hxy : le x y = true := by
        rcases htot x y with h1 | h1
        · exact h1
        · exact absurd h1 h
      refine List.pairwise_cons.mpr ⟨?_, hp⟩
      intro b hb
      rcases List.mem_cons.mp hb with hby | hbys
      · exact hby ▸ hxy
      · exact htrans x y b hxy (hy b hbys)

theorem pairwise_sortBy {α : Type} (le : α → α → Bool)
    (htot : ∀ a b, le a b = true ∨ le b a = true)
    (htrans : ∀ a b c, le a b = true → le b c = true → le a c = true) (l : List α) :
    (sortBy le l).Pairwise (fun a b => le a b = true) := by
  suffices h : ∀ (l acc : List α), acc.Pairwise (fun a b => le a b = true) →
      (List.foldl (fun acc x => stableInsert le x acc) acc l).Pairwise
        (fun a b => le a b = true) by
    exact h l [] (by simp)
  intro l
  induction l with
  | nil => intro acc hacc; simpa using hacc
  | cons x xs ih =>
    intro acc hacc
    simp only [List.foldl_cons]
    exact ih (stableInsert le x acc) (pairwise_stableInsert le htot htrans x acc hacc)

theorem mem_insertKeyAsc {β : Type} [DecidableEq β] (lt : β → β → Bool) (k : β) :
    ∀ (l : List β) (a : β), a ∈ insertKeyAsc lt k l ↔ a = k ∨ a ∈ l := by
  intro l
  induction l with
  | nil => intro a; simp [insertKeyAsc]
  | cons k2 ks ih =>
    intro a
    rw [insertKeyAsc]
    split
    case isTrue h =>
      subst h
      simp only [List.mem_cons]
      tauto
    case isFalse h =>
      split
      · simp only [List.mem_cons]
      · simp only [List.mem_cons, ih a]
        tauto

theorem mem_sortedKeys {β : Type} [DecidableEq β] (lt : β → β → Bool) :
    ∀ (l : List β) (a : β), a ∈ sortedKeys lt l ↔ a ∈ l := by
  intro l
  induction l with
  | nil => intro a; simp [sortedKeys]
  | cons k ks ih =>
    intro a
    rw [sortedKeys, mem_insertKeyAsc, ih a, List.mem_cons]

theorem pairwise_insertKeyAsc {β : Type} [DecidableEq β] (lt : β → β → Bool)
    (htrans : ∀ a b c, lt a b = true → lt b c = true → lt a c = true)
    (hconn : ∀ a b : β, a ≠ b → lt a b = true ∨ lt b a = true) (k : β) :
    ∀ l : List β, l.Pairwise (fun a b => lt a b = true) →
      (insertKeyAsc lt k l).Pairwise (fun a b => lt a b = true) := by
  intro l
  induction l with
  | nil => intro _; simp [insertKeyAsc]
  | cons k2 ks ih =>
    intro hp
    rcases List.pairwise_cons.mp hp with ⟨hk2, hks⟩
    rw [insertKeyAsc]
    split
    case isTrue h => exact hp
    case isFalse h =>
      split
      case isTrue h2 =>
        refine List.pairwise_cons.mpr ⟨?_, hp⟩
        intro b hb
        rcases List.mem_cons.mp hb with hbk | hbks
        · exact hbk ▸ h2
        · exact htrans k k2 b h2 (hk2 b hbks)
      case isFalse h2 =>
        have hlt : lt k2 k = true := by
          rcases hconn k k2 h with h3 | h3
          · exact absurd h3 h2
          · exact h3
        refine List.pairwise_cons.mpr ⟨?_, ih hks⟩
        intro b hb
        rcases (mem_insertKeyAsc lt k ks b).mp hb with hbk | hbks
        · exact hbk ▸ hlt
        · exact hk2 b hbks

theorem pairwise_sortedKeys {β : Type} [DecidableEq β] (lt : β → β → Bool)
    (htrans : ∀ a b c, lt a b = true → lt b c = true → lt a c = true)
    (hconn : ∀ a b : β, a ≠ b → lt a b = true ∨ lt b a = true) :
    ∀ l : List β, (sortedKeys lt l).Pairwise (fun a b => lt a b = true) := by
  intro l
  induction l with
  | nil => simp [sortedKeys]
  | cons k ks ih => exact pairwise_insertKeyAsc lt htrans hconn k _ ih

theorem intLt_trans : ∀ a b c : Int, intLt a b = true → intLt b c = true → intLt a c = true := by
  intro a b c hab hbc
  simp only [intLt, decide_eq_true_eq] at *
  omega

theorem intLt_conn : ∀ a b : Int, a ≠ b → intLt a b = true ∨ intLt b a = true := by
  intro a b h
  simp only [intLt, decide_eq_true_eq]
  omega

theorem charListLt_trans : ∀ l1 l2 l3 : List Char,
    charListLt l1 l2 = true → charListLt l2 l3 = true → charListLt l1 l3 = true := by
  intro l1
  induction l1 with
  | nil =>
    intro l2 l3 h12 h23
    rcases l2 with _ | ⟨b, bs⟩
    · exact absurd h12 (by simp [charListLt])
    · rcases l3 with _ | ⟨c, cs⟩
      · exact absurd h23 (by simp [charListLt])
      · simp [charListLt]
  | cons a as ih =>
    intro l2 l3 h12 h23
    rcases l2 with _ | ⟨b, bs⟩
    · exact absurd h12 (by simp [charListLt])
    · rcases l3 with _ | ⟨c, cs⟩
      · exact absurd h23 (by simp [charListLt])
      · simp only [charListLt, Bool.or_eq_true, Bool.and_eq_true, decide_eq_true_eq] at *
        rcases h12 with h1 | ⟨h1, h1t⟩ <;> rcases h23 with h2 | ⟨h2, h2t⟩
        · exact Or.inl (h1.trans h2)
        · exact Or.inl (h2 ▸ h1)
        · exact Or.inl (h1 ▸ h2)
        · exact Or.inr ⟨h1.trans h2, ih bs cs h1t h2t⟩

theorem charListLt_conn : ∀ l1 l2 : List Char,
    l1 ≠ l2 → charListLt l1 l2 = true ∨ charListLt l2 l1 = true := by
  intro l1
  induction l1 with
  | nil =>
    intro l2 hne
    rcases l2 with _ | ⟨b, bs⟩
    · exact absurd rfl hne
    · exact Or.inl (by simp [charListLt])
  | cons a as ih =>
    intro l2 hne
    rcases l2 with _ | ⟨b, bs⟩
    · exact Or.inr (by simp [charListLt])
    · simp only [charListLt, Bool.or_eq_true, Bool.and_eq_true, decide_eq_true_eq]
      rcases lt_trichotomy a b with h | h | h
      · exact Or.inl (Or.inl h)
      · subst h
        have hne2 : as ≠ bs := by
          intro h2
          exact hne (by rw [h2])
        rcases ih bs hne2 with h2 | h2
        · exact Or.inl (Or.inr ⟨rfl, h2⟩)
        · exact Or.inr (Or.inr ⟨rfl, h2⟩)
      · exact Or.inr (Or.inl h)

theorem strLe_total : ∀ a b : String, strLe a b = true ∨ strLe b a = true := by
  intro a b
  simp only [strLe, strLt, Bool.or_eq_true, decide_eq_true_eq]
  by_cases h : a = b
  · exact Or.inl (Or.inr h)
  · have hd : a.data ≠ b.data := fun h2 => h (String.ext h2)
    rcases charListLt_conn a.data b.data hd with h2 | h2
    · exact Or.inl (Or.inl h2)
    · exact Or.inr (Or.inl h2)

theorem strLe_trans : ∀ a b c : String,
    strLe a b = true → strLe b c = true → strLe a c = true := by
  intro a b c hab hbc
  simp only [strLe, strLt, Bool.or_eq_true, decide_eq_true_eq] at *
  rcases hab with h1 | h1 <;> rcases hbc with h2 | h2
  · exact Or.inl (charListLt_trans a.data b.data c.data h1 h2)
  · exact Or.inl (h2 ▸ h1)
  · exact Or.inl (h1 ▸ h2)
  · exact Or.inr (h1.trans h2)

theorem negDepthNameLe_total (sc : Statechart) :
    ∀ a b, negDepthNameLe sc a b = true ∨ negDepthNameLe sc b a = true := by
  intro a b
  simp only [negDepthNameLe, Bool.or_eq_true, Bool.and_eq_true, decide_eq_true_eq]
  rcases lt_trichotomy (-(sc.depthFor a : Int)) (-(sc.depthFor b : Int)) with h | h | h
  · exact Or.inl (Or.inl h)
  · rcases strLe_total a b with h2 | h2
    · exact Or.inl (Or.inr ⟨h, h2⟩)
    · exact Or.inr (Or.inr ⟨h.symm, h2⟩)
  · exact Or.inr (Or.inl h)

theorem negDepthNameLe_trans (sc : Statechart) :
    ∀ a b c, negDepthNameLe sc a b = true → negDepthNameLe sc b c = true →
      negDepthNameLe sc a c = true := by
  intro a b c hab hbc
  simp only [negDepthNameLe, Bool.or_eq_true, Bool.and_eq_true, decide_eq_true_eq] at *
  rcases hab with h1 | ⟨h1, hs1⟩ <;> rcases hbc with h2 | ⟨h2, hs2⟩
  · exact Or.inl (h1.trans h2)
  · exact Or.inl (h2 ▸ h1)
  · exact Or.inl (h1 ▸ h2)
  · exact Or.inr ⟨h1.trans h2, strLe_trans a b c hs1 hs2⟩

theorem depthNameLe_total (sc : Statechart) :
    ∀ a b, depthNameLe sc a b = true ∨ depthNameLe sc b a = true := by
  intro a b
  simp only [depthNameLe, Bool.or_eq_true, Bool.and_eq_true, decide_eq_true_eq]
  rcases lt_trichotomy (sc.depthFor a) (sc.depthFor b) with h | h | h
  · exact Or.inl (Or.inl h)
  · rcases strLe_total a b with h2 | h2
    · exact Or.inl (Or.inr ⟨h, h2⟩)
    · exact Or.inr (Or.inr ⟨h.symm, h2⟩)
  · exact Or.inr (Or.inl h)

theorem depthNameLe_trans (sc : Statechart) :
    ∀ a b c, depthNameLe sc a b = true → depthNameLe sc b c = true →
      depthNameLe sc a c = true := by
  intro a b c hab hbc
  simp only [depthNameLe, Bool.or_eq_true, Bool.and_eq_true, decide_eq_true_eq] at *
  rcases hab with h1 | ⟨h1, hs1⟩ <;> rcases hbc with h2 | ⟨h2, hs2⟩
  · exact Or.inl (h1.trans h2)
  · exact Or.inl (h2 ▸ h1)
  · exact Or.inl (h1 ▸ h2)
  · exact Or.inr ⟨h1.trans h2, strLe_trans a b c hs1 hs2⟩

theorem transOrderLe_total (sc : Statechart) :
    ∀ a b, transOrderLe sc a b = true ∨ transOrderLe sc b a = true := by
  intro a b
  exact negDepthNameLe_total sc a.source b.source

theorem transOrderLe_trans (sc : Statechart) :
    ∀ a b c, transOrderLe sc a b = true → transOrderLe sc b c = true →
      transOrderLe sc a c = true := by
  intro a b c
  exact negDepthNameLe_trans sc a.source b.source c.source

theorem mem_pairs_length {α : Type} : ∀ {l : List α} {p : α × α}, p ∈ pairs l → 1 < l.length := by
  intro l
  induction l with
  | nil => intro p hp; simp [pairs] at hp
  | cons x xs ih =>
    intro p hp
    rw [pairs, List.mem_append] at hp
    rcases hp with hp | hp
    · rcases List.mem_map.mp hp with ⟨y, hy, _⟩
      rcases xs with _ | _
      · simp at hy
      · simp
    · have := ih hp
      simp only [List.length_cons]
      omega

theorem conflictCheck_range (sc : Statechart) (lca : String) (t : Transition) :
    conflictCheck sc lca t = none ∨ conflictCheck sc lca t = some .conflictingTransitions := by
  rw [conflictCheck]
  rcases t.target with _ | tgt
  · exact Or.inl rfl
  · simp only
    split
    · exact Or.inl rfl
    · exact Or.inr rfl

theorem checkPair_range (sc : Statechart) (t1 t2 : Transition) (e : ExecError) :
    checkPair sc t1 t2 = some e →
      e = .nonDeterminism ∨ e = .conflictingTransitions := by
  intro h
  rw [checkPair] at h
  rcases hsk : sc.stateKind (sc.leastCommonAncestor t1.source t2.source) with
    _ | _ | _ | i | m | m <;> rw [hsk] at h
  case orthogonal =>
    rcases conflictCheck_range sc (sc.leastCommonAncestor t1.source t2.source) t1 with h1 | h1 <;>
      rw [h1] at h
    · rcases conflictCheck_range sc (sc.leastCommonAncestor t1.source t2.source) t2 with h2 | h2 <;>
        rw [h2] at h
      · exact absurd h (by simp)
      · simp only [Option.some.injEq] at h
        exact Or.inr h.symm
    · simp only [Option.some.injEq] at h
      exact Or.inr h.symm
  all_goals
    simp only [Option.some.injEq] at h
    exact Or.inl h.symm

theorem sortTransitions_error_of_pair (sc : Statechart) (ts : List Transition)
    (h : ∃ p ∈ pairs ts, checkPair sc p.fst p.snd ≠ none) :
    sortTransitions sc ts = .error .nonDeterminism ∨
      sortTransitions sc ts = .error .conflictingTransitions := by
  rcases h with ⟨p, hp, hne⟩
  have hlen : 1 < ts.length := mem_pairs_length hp
  rw [sortTransitions, if_pos hlen]
  rcases hfs : (pairs ts).findSome? (fun p => checkPair sc p.fst p.snd) with _ | e
  · exact absurd (List.findSome?_eq_none_iff.mp hfs p hp) hne
  · rcases List.exists_of_findSome?_eq_some hfs with ⟨q, _, hq⟩
    rcases checkPair_range sc q.fst q.snd e hq with he | he
    · exact Or.inl (by rw [hfs, he])
    · exact Or.inr (by rw [hfs, he])

theorem sortTransitions_eq_of_findSome (sc : Statechart) (ts : List Transition)
    (e : ExecError) (hlen : 1 < ts.length)
    (h : (pairs ts).findSome? (fun p => checkPair sc p.fst p.snd) = some e) :
    sortTransitions sc ts = .error e := by
  rw [sortTransitions, if_pos hlen, h]

theorem findSome?_prefix_none_or (sc : Statechart) (e : ExecError) :
    ∀ (ppre tail : List (Transition × Transition)),
      (∀ q ∈ ppre, checkPair sc q.fst q.snd = none ∨ checkPair sc q.fst q.snd = some e) →
      tail.findSome? (fun p => checkPair sc p.fst p.snd) = some e →
      (ppre ++ tail).findSome? (fun p => checkPair sc p.fst p.snd) = some e := by
  intro ppre
  induction ppre with
  | nil =>
    intro tail _ h
    simpa using h
  | cons q rest ih =>
    intro tail hall htail
    rw [List.cons_append, List.findSome?_cons]
    rcases hall q (List.mem_cons_self _ _) with hq | hq <;> rw [hq]
    exact ih tail (fun r hr => hall r (List.mem_cons_of_mem _ hr)) htail

/-- Every pair whose least common ancestor is not orthogonal fails the
non-determinism check. -/
theorem checkPair_of_nonorth (sc : Statechart) (p : Transition × Transition)
    (h : sc.stateKind (sc.leastCommonAncestor p.fst.source p.snd.source) ≠ .orthogonal) :
    checkPair sc p.fst p.snd = some .nonDeterminism := by
  rw [checkPair]
  rcases hsk : sc.stateKind (sc.leastCommonAncestor p.fst.source p.snd.source) with
    _ | _ | _ | i | m | m
  case orthogonal => exact absurd hsk h
  all_goals rfl

/-- C2 (amended): when two or more selected transitions are handed to
_sort_transitions and a pair at some position of the pairwise
iteration order has source states whose least common ancestor is not
an Orthogonal state, an error is raised and no ordering is returned;
the error is NonDeterminismError whenever no earlier checked pair
fails the conflict check, and it is ConflictingTransitionsError when
the first failing pair checked earlier fails the conflict check. -/
theorem c2_nondeterminism_amended (sc : Statechart) (ts : List Transition)
    (ppre ppost : List (Transition × Transition)) (p : Transition × Transition)
    (hsplit : pairs ts = ppre ++ p :: ppost)
    (hnonorth : sc.stateKind
      (sc.leastCommonAncestor p.fst.source p.snd.source) ≠ .orthogonal) :
    (sortTransitions sc ts = .error .nonDeterminism ∨
      sortTransitions sc ts = .error .conflictingTransitions)
    ∧ ((∀ q ∈ ppre, checkPair sc q.fst q.snd ≠ some .conflictingTransitions) →
        sortTransitions sc ts = .error .nonDeterminism)
    ∧ (∀ qpre q qpost, ppre = qpre ++ q :: qpost →
        checkPair sc q.fst q.snd = some .conflictingTransitions →
        (∀ r ∈ qpre, checkPair sc r.fst r.snd ≠ some .nonDeterminism) →
        sortTransitions sc ts = .error .conflictingTransitions) := by
  have hp : checkPair sc p.fst p.snd = some .nonDeterminism :=
    checkPair_of_nonorth sc p hnonorth
  have hmem : p ∈ pairs ts := by
    rw [hsplit]
    exact List.mem_append_right _ (List.mem_cons_self _ _)
  have hlen : 1 < ts.length := mem_pairs_length hmem
  refine ⟨?_, ?_, ?_⟩
  · exact sortTransitions_error_of_pair sc ts ⟨p, hmem, by rw [hp]; simp⟩
  · intro hnoct
    apply sortTransitions_eq_of_findSome sc ts _ hlen
    rw [hsplit]
    apply findSome?_prefix_none_or
    · intro q hq
      rcases hcq : checkPair sc q.fst q.snd with _ | e1
      · exact Or.inl rfl
      · rcases checkPair_range sc q.fst q.snd e1 hcq with he | he
        · exact Or.inr (by rw [he])
        · rw [he] at hcq
          exact absurd hcq (hnoct q hq)
    · rw [List.findSome?_cons, hp]
  · intro qpre q qpost hqsplit hq hqpre
    apply sortTransitions_eq_of_findSome sc ts _ hlen
    rw [hsplit, hqsplit, List.append_assoc, List.cons_append]
    apply findSome?_prefix_none_or
    · intro r hr
      rcases hcr : checkPair sc r.fst r.snd with _ | e1
      · exact Or.inl rfl
      · rcases checkPair_range sc r.fst r.snd e1 hcr with he | he
        · rw [he] at hcr
          exact absurd hcr (hqpre r hr)
        · exact Or.inr (by rw [he])
    · rw [List.findSome?_cons, hq]

/-- C2 counterexample: three selected transitions of the orthogonal
example chart such that the pair (t1c, t3c) has the non-orthogonal
compound root as least common ancestor; as the earlier checked pair
(t1c, t2c) crosses a parallel region boundary, the raised error is
ConflictingTransitionsError and not the NonDeterminismError stated by
the claim. -/
theorem c2_counterexample :
    (∃ p ∈ pairs [t1c, t2c, t3c],
      chart2.stateKind (chart2.leastCommonAncestor p.fst.source p.snd.source) ≠ .orthogonal)
    ∧ sortTransitions chart2 [t1c, t2c, t3c] = .error .conflictingTransitions
    ∧ sortTransitions chart2 [t1c, t2c, t3c] ≠ .error .nonDeterminism := by
  refine ⟨⟨(t1c, t3c), by decide, by decide⟩, by decide, by decide⟩

/-- C2 witness: two transitions of the orthogonal example chart whose
sources a1 and c have the compound root as least common ancestor; as
no earlier checked pair exists, the amended claim yields
NonDeterminismError specifically. -/
theorem c2_witness :
    sortTransitions chart2 [tAc, t3c] = .error .nonDeterminism :=
  (c2_nondeterminism_amended chart2 [tAc, t3c] [] [] (tAc, t3c)
    (by decide) (by decide)).2.1 (by decide)

/-- A pair under an Orthogonal least common ancestor with a member
whose present target lies outside its own region fails the conflict
check. -/
theorem checkPair_of_conflict (sc : Statechart) (p : Transition × Transition)
    (hsk : sc.stateKind (sc.leastCommonAncestor p.fst.source p.snd.source) = .orthogonal)
    (hviol : ∃ t, (t = p.fst ∨ t = p.snd) ∧
      ∃ tgt, t.target = some tgt ∧
        tgt ≠ lastBeforeLca (sc.leastCommonAncestor p.fst.source p.snd.source) t.source
          (sc.ancestorsFor t.source) ∧
        ¬ ((sc.descendantsFor
            (lastBeforeLca (sc.leastCommonAncestor p.fst.source p.snd.source) t.source
              (sc.ancestorsFor t.source))).contains tgt = true)) :
    checkPair sc p.fst p.snd = some .conflictingTransitions := by
  rcases hviol with ⟨t, hmem, tgt, htgt, hne, hnd⟩
  have hcc : conflictCheck sc (sc.leastCommonAncestor p.fst.source p.snd.source) t =
      some .conflictingTransitions := by
    rw [conflictCheck, htgt]
    simp only
    rw [if_neg]
    simp only [Bool.or_eq_true, decide_eq_true_eq]
    push_neg
    exact ⟨hne, by simpa using hnd⟩
  rw [checkPair, hsk]
  rcases hmem with hm | hm
  · rw [hm] at hcc
    rw [hcc]
  · rcases conflictCheck_range sc (sc.leastCommonAncestor p.fst.source p.snd.source) p.fst with
      h1 | h1
    · rw [hm] at hcc
      rw [h1, hcc]
    · rw [h1]

/-- C3 (amended): when a pair of selected transitions, at some
position of the pairwise iteration order, has an Orthogonal least
common ancestor and one member of the pair has a present target that
is neither its region root under the lca nor a descendant of that
region root, _sort_transitions raises an error and returns no
ordering; the error is ConflictingTransitionsError whenever no
earlier checked pair has a non-Orthogonal least common ancestor, and
it is NonDeterminismError when the first failing pair checked earlier
has a non-Orthogonal least common ancestor.  A transition without
target (an internal transition) is exempt from the conflict check. -/
theorem c3_conflict_amended (sc : Statechart) (ts : List Transition)
    (ppre ppost : List (Transition × Transition)) (p : Transition × Transition)
    (hsplit : pairs ts = ppre ++ p :: ppost)
    (hsk : sc.stateKind (sc.leastCommonAncestor p.fst.source p.snd.source) = .orthogonal)
    (hviol : ∃ t, (t = p.fst ∨ t = p.snd) ∧
      ∃ tgt, t.target = some tgt ∧
        tgt ≠ lastBeforeLca (sc.leastCommonAncestor p.fst.source p.snd.source) t.source
          (sc.ancestorsFor t.source) ∧
        ¬ ((sc.descendantsFor
            (lastBeforeLca (sc.leastCommonAncestor p.fst.source p.snd.source) t.source
              (sc.ancestorsFor t.source))).contains tgt = true)) :
    (sortTransitions sc ts = .error .nonDeterminism ∨
      sortTransitions sc ts = .error .conflictingTransitions)
    ∧ ((∀ q ∈ ppre, checkPair sc q.fst q.snd ≠ some .nonDeterminism) →
        sortTransitions sc ts = .error .conflictingTransitions)
    ∧ (∀ qpre q qpost, ppre = qpre ++ q :: qpost →
        sc.stateKind (sc.leastCommonAncestor q.fst.source q.snd.source) ≠ .orthogonal →
        (∀ r ∈ qpre, checkPair sc r.fst r.snd ≠ some .conflictingTransitions) →
        sortTransitions sc ts = .error .nonDeterminism) := by
  have hp : checkPair sc p.fst p.snd = some .conflictingTransitions :=
    checkPair_of_conflict sc p hsk hviol
  have hmem : p ∈ pairs ts := by
    rw [hsplit]
    exact List.mem_append_right _ (List.mem_cons_self _ _)
  have hlen : 1 < ts.length := mem_pairs_length hmem
  refine ⟨?_, ?_, ?_⟩
  · exact sortTransitions_error_of_pair sc ts ⟨p, hmem, by rw [hp]; simp⟩
  · intro hnond
    apply sortTransitions_eq_of_findSome sc ts _ hlen
    rw [hsplit]
    apply findSome?_prefix_none_or
    · intro q hq
      rcases hcq : checkPair sc q.fst q.snd with _ | e1
      · exact Or.inl rfl
      · rcases checkPair_range sc q.fst q.snd e1 hcq with he | he
        · rw [he] at hcq
          exact absurd hcq (hnond q hq)
        · exact Or.inr (by rw [he])
    · rw [List.findSome?_cons, hp]
  · intro qpre q qpost hqsplit hqnonorth hqpre
    have hq : checkPair sc q.fst q.snd = some .nonDeterminism :=
      checkPair_of_nonorth sc q hqnonorth
    apply sortTransitions_eq_of_findSome sc ts _ hlen
    rw [hsplit, hqsplit, List.append_assoc, List.cons_append]
    apply findSome?_prefix_none_or
    · intro r hr
      rcases hcr : checkPair sc r.fst r.snd with _ | e1
      · exact Or.inl rfl
      · rcases checkPair_range sc r.fst r.snd e1 hcr with he | he
        · exact Or.inr (by rw [he])
        · rw [he] at hcr
          exact absurd hcr (hqpre r hr)
    · rw [List.findSome?_cons, hq]

/-- C3 counterexample: a pair of transitions of the orthogonal example
chart under the orthogonal lca O where the first member is an internal
transition (no target).  An absent target satisfies the claim's
condition of being neither the region root nor one of its descendants,
yet _sort_transitions raises no error and returns the ordering. -/
theorem c3_counterexample :
    chart2.stateKind (chart2.leastCommonAncestor tIntc.source t2c.source) = .orthogonal
    ∧ (tIntc, t2c) ∈ pairs [tIntc, t2c]
    ∧ (¬ ∃ tgt, tIntc.target = some tgt ∧
        (tgt = lastBeforeLca (chart2.leastCommonAncestor tIntc.source t2c.source) tIntc.source
            (chart2.ancestorsFor tIntc.source) ∨
          (chart2.descendantsFor
            (lastBeforeLca (chart2.leastCommonAncestor tIntc.source t2c.source) tIntc.source
              (chart2.ancestorsFor tIntc.source))).contains tgt = true))
    ∧ sortTransitions chart2 [tIntc, t2c] = .ok [tIntc, t2c] := by
  refine ⟨by decide, by decide, by decide, by decide⟩

/-- C3 witness: the pair (t1c, t2c) under the orthogonal lca O, where
t1c targets b1 outside its own region A; as no earlier checked pair
exists, the amended claim yields ConflictingTransitionsError
specifically. -/
theorem c3_witness :
    sortTransitions chart2 [t1c, t2c] = .error .conflictingTransitions :=
  (c3_conflict_amended chart2 [t1c, t2c] [] [] (t1c, t2c)
    (by decide) (by decide)
    ⟨t1c, Or.inl rfl, "b1", by decide, by decide, by decide⟩).2.1 (by decide)

/-- C8: whenever more than one transition is selected and no error is
raised, _sort_transitions returns the same multiset of transitions,
ordered by the key (-depth(source), source name): transitions with
deeper sources first, ties broken by the source name ascending. -/
theorem c8_transition_order (sc : Statechart) (ts l : List Transition)
    (hlen : 1 < ts.length) (hok : sortTransitions sc ts = .ok l) :
    l.Perm ts ∧ l.Pairwise (fun a b => transOrderLe sc a b = true) := by
  rw [sortTransitions, if_pos hlen] at hok
  rcases hfs : (pairs ts).findSome? (fun p => checkPair sc p.fst p.snd) with _ | e <;>
    rw [hfs] at hok
  · simp only [Except.ok.injEq] at hok
    subst hok
    exact ⟨sortBy_perm (transOrderLe sc) ts,
      pairwise_sortBy (transOrderLe sc) (transOrderLe_total sc) (transOrderLe_trans sc) ts⟩
  · exact absurd hok (by simp)

/-- C8 witness: the two in-region transitions of the orthogonal
example chart, given in reverse name order, are returned as a sorted
permutation. -/
theorem c8_witness :
    ([tAc, t2c] : List Transition).Perm [t2c, tAc] ∧
      ([tAc, t2c] : List Transition).Pairwise (fun a b => transOrderLe chart2 a b = true) :=
  c8_transition_order chart2 [t2c, tAc] [tAc, t2c] (by decide) (by decide)

/-- C7: for every call to queue with a delayed event, a negative delay
fails with an InvalidDelay error and leaves the interpreter unchanged
(the event is not added to the queue); a non-negative delay schedules
the event at now + delay, where now is the clock time at the moment of
the call. -/
theorem c7_delayed_queue (I : Interp) (name : String) (d : Int) :
    (d < 0 → interpQueue I [.ev ⟨name, .delayedExternal d⟩] = (I, some .invalidDelay)) ∧
    (0 ≤ d → interpQueue I [.ev ⟨name, .delayedExternal d⟩] =
      ({ I with queue :=
          ⟨I.queue.entries ++ [⟨I.clock + d, I.queue.counter, ⟨name, .delayedExternal d⟩⟩],
            I.queue.counter + 1⟩ }, none)) := by
  constructor <;> intro h
  · simp only [interpQueue, toEvent, Event.isInternal, EventQueue.push, Event.delay]
    rw [if_pos h]
    simp
  · simp only [interpQueue, toEvent, Event.isInternal, EventQueue.push, Event.delay]
    rw [if_neg (not_lt.mpr h)]
    simp [interpQueue]

/-- C7 witness: a delayed event with delay -1 is rejected with
InvalidDelay and not queued; a delayed event with delay 2 queued at
clock time 0 is scheduled at time 2. -/
theorem c7_witness :
    interpQueue interpW [.ev ⟨"neg", .delayedExternal (-1)⟩] = (interpW, some .invalidDelay) ∧
    interpQueue interpW [.ev ⟨"pos", .delayedExternal 2⟩] =
      ({ interpW with queue :=
          ⟨interpW.queue.entries ++
            [⟨interpW.clock + 2, interpW.queue.counter, ⟨"pos", .delayedExternal 2⟩⟩],
            interpW.queue.counter + 1⟩ }, none) :=
  ⟨(c7_delayed_queue interpW "neg" (-1)).1 (by decide),
   (c7_delayed_queue interpW "pos" 2).2 (by decide)⟩

/-- C10 counterexample: a call to queue whose arguments contain an
internal event, preceded by a delayed event with a negative delay.
The call errors with InvalidDelay, not with the rejection of the
internal event, and the event preceding the offending internal one was
not added to the queue. -/
theorem c10_counterexample :
    (∃ a ∈ [QueueArg.ev ⟨"d", .delayedExternal (-1)⟩, QueueArg.ev ⟨"i", .internal⟩],
      (toEvent a).isInternal = true)
    ∧ interpQueue interpW [.ev ⟨"d", .delayedExternal (-1)⟩, .ev ⟨"i", .internal⟩] =
        (interpW, some .invalidDelay)
    ∧ (interpQueue interpW
        [.ev ⟨"d", .delayedExternal (-1)⟩, .ev ⟨"i", .internal⟩]).fst.queue.entries =
        interpW.queue.entries :=
  ⟨⟨.ev ⟨"i", .internal⟩, by decide, by decide⟩, rfl, rfl⟩

/-- C10 (amended): for a call to queue whose arguments are a prefix of
validly queueable events (not internal, non-negative delay), then an
internal event, then anything: the call fails with the
InvalidInternalEvent error, the events of the prefix have been pushed
onto the queue in order and remain queued, and neither the offending
event nor any later argument is added. -/
theorem c10_queue_not_atomic (I : Interp) (pre : List QueueArg) (e : Event)
    (post : List QueueArg)
    (hpre : ∀ a ∈ pre, (toEvent a).isInternal = false ∧ 0 ≤ (toEvent a).delay)
    (he : e.isInternal = true) :
    (interpQueue I (pre ++ .ev e :: post)).snd = some .invalidInternalEvent ∧
    ((interpQueue I (pre ++ .ev e :: post)).fst.queue.entries).map (fun en => en.event) =
      I.queue.entries.map (fun en => en.event) ++ pre.map toEvent := by
  induction pre generalizing I with
  | nil =>
    simp only [List.nil_append, List.map_nil, List.append_nil, interpQueue, toEvent, he]
    simp
  | cons a pre ih =>
    obtain ⟨hni, hd⟩ := hpre a (List.mem_cons_self a pre)
    simp only [List.cons_append, interpQueue, hni]
    rw [EventQueue.push, if_neg (not_lt.mpr hd)]
    simp only [Bool.false_eq_true, if_false]
    have hrec := ih
      { I with queue :=
          ⟨I.queue.entries ++ [⟨I.clock + (toEvent a).delay, I.queue.counter, toEvent a⟩],
            I.queue.counter + 1⟩ }
      (fun b hb => hpre b (List.mem_cons_of_mem a hb))
    refine ⟨hrec.1, ?_⟩
    simp only [List.append_eq]
    rw [hrec.2]
    simp [List.map_append]

/-- C10 witness: queueing the name a, an internal event and the name b
errors with InvalidInternalEvent while a remains queued and b is never
added. -/
theorem c10_witness :
    (interpQueue interpW [.name "a", .ev ⟨"i", .internal⟩, .name "b"]).snd =
      some .invalidInternalEvent ∧
    ((interpQueue interpW
        [.name "a", .ev ⟨"i", .internal⟩, .name "b"]).fst.queue.entries).map
        (fun en => en.event) =
      interpW.queue.entries.map (fun en => en.event) ++ [QueueArg.name "a"].map toEvent :=
  c10_queue_not_atomic interpW [.name "a"] ⟨"i", .internal⟩ [.name "b"]
    (by decide) (by decide)

/-- C5: whenever the stabilization step generator processes a leaf of
the configuration that is a ShallowHistory or DeepHistory state (the
leaves preceding it in (depth descending, name ascending) order having
produced no step), the returned micro step enters exactly the state
list memorized for that history state (or the singleton list holding
the history's default memory value when none was recorded), sorted by
(depth ascending, name ascending), and exits exactly the history
pseudostate itself. -/
theorem c5_history_stabilization (sc : Statechart) (memory : List (String × List String))
    (names pre rest : List String) (leaf : String) (m : String)
    (hsplit : sortBy (negDepthNameLe sc) (sc.leafFor names) = pre ++ leaf :: rest)
    (hpre : ∀ x ∈ pre, stepForLeaf sc memory x = none)
    (hkind : sc.stateKind leaf = .shallowHistory m ∨ sc.stateKind leaf = .deepHistory m) :
    ∃ ms, createStabilizationStep sc memory names = some ms
      ∧ ms.exitedStates = [leaf]
      ∧ ms.enteredStates.Perm ((memory.lookup leaf).getD [m])
      ∧ ms.enteredStates.Pairwise (fun a b => depthNameLe sc a b = true)
      ∧ ms.event = none ∧ ms.transition = none := by
  have hnone : List.findSome? (stepForLeaf sc memory) pre = none :=
    List.findSome?_eq_none_iff.mpr hpre
  have hstep : stepForLeaf sc memory leaf =
      some (microStep none none
        (sortBy (depthNameLe sc) ((memory.lookup leaf).getD [m])) [leaf]) := by
    rcases hkind with hk | hk <;> rw [stepForLeaf, hk]
  refine ⟨microStep none none
      (sortBy (depthNameLe sc) ((memory.lookup leaf).getD [m])) [leaf],
    ?_, rfl, ?_, ?_, rfl, rfl⟩
  · rw [createStabilizationStep, hsplit, List.findSome?_append, hnone]
    simp [List.findSome?_cons, hstep]
  · exact sortBy_perm _ _
  · exact pairwise_sortBy _ (depthNameLe_total sc) (depthNameLe_trans sc) _

/-- C5 witness: in the shallow history example chart, with memory
recording that b was active in C, stabilizing the configuration
containing the history leaf H enters exactly b and exits H. -/
theorem c5_witness :
    ∃ ms, createStabilizationStep chart5 [("H", ["b"])] ["root5", "C", "H"] = some ms
      ∧ ms.exitedStates = ["H"]
      ∧ ms.enteredStates.Perm ((([("H", ["b"])] : List (String × List String)).lookup "H").getD ["a"])
      ∧ ms.enteredStates.Pairwise (fun a b => depthNameLe chart5 a b = true)
      ∧ ms.event = none ∧ ms.transition = none :=
  c5_history_stabilization chart5 [("H", ["b"])] ["root5", "C", "H"] [] [] "H" "a"
    (by decide) (by decide) (Or.inl (by decide))

theorem map_split {α β : Type} (f : α → β) :
    ∀ (l : List α) (s t : List β) (x : β), l.map f = s ++ x :: t →
      ∃ l1 a l2, l = l1 ++ a :: l2 ∧ s = l1.map f ∧ x = f a ∧ t = l2.map f := by
  intro l
  induction l with
  | nil =>
    intro s t x h
    simp only [List.map_nil] at h
    exact absurd h.symm (List.append_ne_nil_of_right_ne_nil s (by simp))
  | cons a l ih =>
    intro s t x h
    rcases s with _ | ⟨b, s1⟩
    · simp only [List.map_cons, List.nil_append, List.cons.injEq] at h
      exact ⟨[], a, l, by simp, by simp, h.1.symm, h.2.symm⟩
    · simp only [List.map_cons, List.cons_append, List.cons.injEq] at h
      rcases ih s1 t x h.2 with ⟨l1, a1, l2, hl, hs, hx, ht⟩
      exact ⟨a :: l1, a1, l2, by rw [hl]; simp, by simp [hs, h.1.symm], hx, ht⟩

theorem selectFromPriorityGroups_spec (ev : Evaluator) (exposed : Option Event) :
    ∀ groups : List (Int × List Transition),
      selectFromPriorityGroups ev exposed groups ≠ [] →
      ∃ gpre k g gpost,
        groups = gpre ++ (k, g) :: gpost ∧
        (∀ p ∈ gpre, p.snd.filter (guardPasses ev exposed) = []) ∧
        selectFromPriorityGroups ev exposed groups = g.filter (guardPasses ev exposed) ∧
        g.filter (guardPasses ev exposed) ≠ [] := by
  intro groups
  induction groups with
  | nil => intro h; exact absurd rfl h
  | cons p rest ih =>
    intro h
    rcases p with ⟨k, g⟩
    have hunf : selectFromPriorityGroups ev exposed ((k, g) :: rest) =
        if (g.filter (guardPasses ev exposed)).isEmpty then
          selectFromPriorityGroups ev exposed rest
        else g.filter (guardPasses ev exposed) := rfl
    by_cases hp : (g.filter (guardPasses ev exposed)).isEmpty = true
    · rw [hunf, if_pos hp] at h
      rcases ih h with ⟨gpre, k1, g1, gpost, hgr, hpre, hres, hne⟩
      refine ⟨(k, g) :: gpre, k1, g1, gpost, by rw [List.cons_append, hgr], ?_, ?_, hne⟩
      · intro q hq
        rcases List.mem_cons.mp hq with hq1 | hq1
        · rw [hq1]
          exact List.isEmpty_iff.mp hp
        · exact hpre q hq1
      · rw [hunf, if_pos hp]
        exact hres
    · refine ⟨[], k, g, rest, rfl, by simp, ?_, ?_⟩
      · rw [hunf, if_neg hp]
      · intro hnil
        exact hp (by rw [hnil]; rfl)

/-- C4: for every source state considered during transition selection,
whose candidate transitions are examined by priority class in
descending order: when anything is selected, there is a priority p
such that some candidate of priority p passes its guard, no candidate
of any higher priority class passes its guard, and the selection is
exactly the guard-passing candidates of priority p (so no candidate of
a lower priority class is selected). -/
theorem c4_priority_selection (ev : Evaluator) (exposed : Option Event) (ts : List Transition)
    (hne : selectForSource ev exposed ts ≠ []) :
    ∃ p : Int,
      (∃ t ∈ ts, t.priority = p ∧ guardPasses ev exposed t = true) ∧
      (∀ t ∈ ts, p < t.priority → guardPasses ev exposed t = false) ∧
      selectForSource ev exposed ts =
        (ts.filter (fun t => decide (t.priority = p))).filter (guardPasses ev exposed) := by
  have hgroups_def : sortedGroupby (fun t : Transition => t.priority) intLt true ts =
      ((sortedKeys intLt (ts.map (fun t => t.priority))).reverse).map
        (fun k => (k, ts.filter (fun t => decide (t.priority = k)))) := rfl
  have hne2 : selectFromPriorityGroups ev exposed
      (sortedGroupby (fun t : Transition => t.priority) intLt true ts) ≠ [] := hne
  obtain ⟨gpre, k, g, gpost, hgr, hpre, hres, hgne⟩ :=
    selectFromPriorityGroups_spec ev exposed _ hne2
  rw [hgroups_def] at hgr
  obtain ⟨ks1, k0, ks2, hks, hgpre, hx, hgpost⟩ := map_split _ _ _ _ _ hgr
  simp only [Prod.mk.injEq] at hx
  obtain ⟨hk, hg⟩ := hx
  subst hk
  refine ⟨k, ?_, ?_, ?_⟩
  · obtain ⟨t, ht⟩ := List.exists_mem_of_ne_nil _ hgne
    rw [List.mem_filter] at ht
    obtain ⟨htg, hpass⟩ := ht
    rw [hg, List.mem_filter] at htg
    obtain ⟨hts, hprio⟩ := htg
    exact ⟨t, hts, by simpa using hprio, hpass⟩
  · intro t ht hkt
    rcases hgp : guardPasses ev exposed t with _ | _
    · rfl
    · exfalso
      have hmem : t.priority ∈ (sortedKeys intLt (ts.map (fun t => t.priority))).reverse := by
        rw [List.mem_reverse, mem_sortedKeys]
        exact List.mem_map_of_mem _ ht
      rw [hks] at hmem
      rcases List.mem_append.mp hmem with hmem | hmem
      · have hgrp : (t.priority, ts.filter (fun s => decide (s.priority = t.priority))) ∈ gpre := by
          rw [hgpre]
          exact List.mem_map_of_mem _ hmem
        have hempty := hpre _ hgrp
        have htin : t ∈ (ts.filter (fun s => decide (s.priority = t.priority))).filter
            (guardPasses ev exposed) := by
          rw [List.mem_filter]
          exact ⟨List.mem_filter.mpr ⟨ht, by simp⟩, hgp⟩
        rw [hempty] at htin
        exact List.not_mem_nil t htin
      · rcases List.mem_cons.mp hmem with hmem | hmem
        · omega
        · have hpw : ((sortedKeys intLt (ts.map (fun t => t.priority))).reverse).Pairwise
              (fun a b => intLt b a = true) := by
            rw [List.pairwise_reverse]
            exact pairwise_sortedKeys intLt intLt_trans intLt_conn _
          rw [hks] at hpw
          have hcons := (List.pairwise_append.mp hpw).2.1
          have hlt := (List.pairwise_cons.mp hcons).1 _ hmem
          simp only [intLt, decide_eq_true_eq] at hlt
          omega
  · rw [hg] at hres
    exact hres

/-- C4 witness: among three candidates of one source with priorities
1, 2 and 2 and all guards passing, the selection is exactly the two
priority 2 candidates. -/
theorem c4_witness :
    ∃ p : Int,
      (∃ t ∈ ts4, t.priority = p ∧ guardPasses trivialEvaluator none t = true) ∧
      (∀ t ∈ ts4, p < t.priority → guardPasses trivialEvaluator none t = false) ∧
      selectForSource trivialEvaluator none ts4 =
        (ts4.filter (fun t => decide (t.priority = p))).filter
          (guardPasses trivialEvaluator none) :=
  c4_priority_selection trivialEvaluator none ts4 (by decide)

theorem queueExtends_refl (q : EventQueue) : QueueExtends q q :=
  ⟨[], by simp, le_refl _, by simp⟩

theorem queueExtends_trans {q1 q2 q3 : EventQueue} (h12 : QueueExtends q1 q2)
    (h23 : QueueExtends q2 q3) : QueueExtends q1 q3 := by
  obtain ⟨l1, he1, hc1, hf1⟩ := h12
  obtain ⟨l2, he2, hc2, hf2⟩ := h23
  refine ⟨l1 ++ l2, ?_, hc1.trans hc2, ?_⟩
  · rw [he2, he1, List.append_assoc]
  · intro en hen
    rcases List.mem_append.mp hen with h | h
    · exact hf1 en h
    · exact hc1.trans (hf2 en h)

theorem push_queueExtends {q q1 : EventQueue} {t : Int} {e : Event}
    (h : q.push t e = .ok q1) : QueueExtends q q1 := by
  rw [EventQueue.push] at h
  split at h
  · exact absurd h (by simp)
  · simp only [Except.ok.injEq] at h
    refine ⟨[⟨t + e.delay, q.counter, e⟩], ?_, ?_, ?_⟩
    · rw [← h]
    · rw [← h]
      simp
    · intro en hen
      rcases List.mem_singleton.mp hen with rfl
      exact le_refl _

theorem raiseEvent_queueExtends (I : Interp) (e : Event) :
    QueueExtends I.queue (raiseEvent I e).fst.queue := by
  rw [raiseEvent]
  split
  · split
    · exact queueExtends_refl _
    · rename_i q1 hp
      exact push_queueExtends hp
  · split
    · exact queueExtends_refl _
    · exact queueExtends_refl _

theorem raiseEvents_queueExtends : ∀ (es : List Event) (I : Interp),
    QueueExtends I.queue (raiseEvents I es).fst.queue := by
  intro es
  induction es with
  | nil => intro I; exact queueExtends_refl _
  | cons e rest ih =>
    intro I
    have hr : QueueExtends I.queue (raiseEvent I e).fst.queue := raiseEvent_queueExtends I e
    simp only [raiseEvents]
    split
    · exact hr
    · exact queueExtends_trans hr (ih (raiseEvent I e).fst)

theorem applyExits_queue_eq (active0 : List String) (stepEvent : Option Event) :
    ∀ (names : List String) (I : Interp),
      (applyExits active0 stepEvent I names).fst.queue = I.queue := by
  intro names
  induction names with
  | nil => intro I; rfl
  | cons n rest ih =>
    intro I
    simp only [applyExits]
    split
    · rfl
    · exact ih _

theorem applyEntries_queue_eq (stepEvent : Option Event) :
    ∀ (names : List String) (I : Interp),
      (applyEntries stepEvent I names).fst.queue = I.queue := by
  intro names
  induction names with
  | nil => intro I; rfl
  | cons n rest ih =>
    intro I
    simp only [applyEntries]
    split
    · rfl
    · exact ih _

theorem applyTransitionPhase_queue_eq (I : Interp) (step : MicroStep) :
    (applyTransitionPhase I step).fst.queue = I.queue := by
  rw [applyTransitionPhase]
  rcases step.transition with _ | t
  · rfl
  · simp only
    split
    · rfl
    · split
      · rfl
      · split
        · rfl
        · split
          · rfl
          · rfl

theorem applyStep_queueExtends (I : Interp) (step : MicroStep) :
    QueueExtends I.queue (applyStep I step).fst.queue := by
  simp only [applyStep]
  have hq1 : (applyExits I.configuration step.event I step.exitedStates).fst.queue =
      I.queue := applyExits_queue_eq _ _ _ _
  split
  · show QueueExtends I.queue (applyExits I.configuration step.event I step.exitedStates).fst.queue
    rw [hq1]
    exact queueExtends_refl _
  · have hq2 : (applyTransitionPhase
        (applyExits I.configuration step.event I step.exitedStates).fst step).fst.queue =
        (applyExits I.configuration step.event I step.exitedStates).fst.queue :=
      applyTransitionPhase_queue_eq _ _
    split
    · show QueueExtends I.queue (applyTransitionPhase
        (applyExits I.configuration step.event I step.exitedStates).fst step).fst.queue
      rw [hq2, hq1]
      exact queueExtends_refl _
    · have hq3 : (applyEntries step.event
          (applyTransitionPhase
            (applyExits I.configuration step.event I step.exitedStates).fst step).fst
          step.enteredStates).fst.queue =
          (applyTransitionPhase
            (applyExits I.configuration step.event I step.exitedStates).fst step).fst.queue :=
        applyEntries_queue_eq _ _ _
      split
      · show QueueExtends I.queue (applyEntries step.event
          (applyTransitionPhase
            (applyExits I.configuration step.event I step.exitedStates).fst step).fst
          step.enteredStates).fst.queue
        rw [hq3, hq2, hq1]
        exact queueExtends_refl _
      · have hq4 := raiseEvents_queueExtends
          ((applyExits I.configuration step.event I step.exitedStates).snd.fst ++
            (applyTransitionPhase
              (applyExits I.configuration step.event I step.exitedStates).fst step).snd.fst ++
            (applyEntries step.event
              (applyTransitionPhase
                (applyExits I.configuration step.event I step.exitedStates).fst step).fst
              step.enteredStates).snd.fst)
          (applyEntries step.event
            (applyTransitionPhase
              (applyExits I.configuration step.event I step.exitedStates).fst step).fst
            step.enteredStates).fst
        rw [hq3, hq2, hq1] at hq4
        split
        · exact hq4
        · exact hq4

theorem stabilize_queueExtends : ∀ (fuel : Nat) (I : Interp),
    QueueExtends I.queue (stabilize fuel I).fst.queue := by
  intro fuel
  induction fuel with
  | zero => intro I; exact queueExtends_refl _
  | succ n ih =>
    intro I
    simp only [stabilize]
    split
    · exact queueExtends_refl _
    · rename_i step hcs
      have h1 : QueueExtends I.queue (applyStep I step).fst.queue :=
        applyStep_queueExtends I step
      split
      · exact h1
      · have h2 : QueueExtends (applyStep I step).fst.queue
            (stabilize n (applyStep I step).fst).fst.queue := ih _
        split
        · exact queueExtends_trans h1 h2
        · exact queueExtends_trans h1 h2

theorem execSteps_queueExtends (fuel : Nat) : ∀ (steps : List MicroStep) (I : Interp),
    QueueExtends I.queue (execSteps fuel I steps).fst.queue := by
  intro steps
  induction steps with
  | nil => intro I; exact queueExtends_refl _
  | cons s rest ih =>
    intro I
    simp only [execSteps]
    have h1 : QueueExtends I.queue (applyStep I s).fst.queue := applyStep_queueExtends I s
    split
    · exact h1
    · have h2 : QueueExtends (applyStep I s).fst.queue
          (stabilize fuel (applyStep I s).fst).fst.queue := stabilize_queueExtends fuel _
      split
      · exact queueExtends_trans h1 h2
      · have h3 : QueueExtends (stabilize fuel (applyStep I s).fst).fst.queue
            (execSteps fuel (stabilize fuel (applyStep I s).fst).fst rest).fst.queue := ih _
        split
        · exact queueExtends_trans h1 (queueExtends_trans h2 h3)
        · exact queueExtends_trans h1 (queueExtends_trans h2 h3)

theorem computeSteps_fst (I : Interp) :
    (computeSteps I).fst = if I.initialized then I else { I with initialized := true } := by
  rw [computeSteps]
  by_cases h : I.initialized
  · simp only [if_pos h]
    split
    · split <;> rfl
    · split <;> rfl
  · simp [if_neg h, h]

theorem pop_counter (q : EventQueue) : q.pop.counter = q.counter := by
  rw [EventQueue.pop]
  split <;> rfl

theorem selectEvent_consume_snd (q : EventQueue) (t : Int) :
    (selectEvent q t true).snd = q ∨ (selectEvent q t true).snd = q.pop := by
  rw [selectEvent]
  split
  · split
    · exact Or.inr rfl
    · exact Or.inl rfl
  · exact Or.inl rfl

theorem consumeIfNeeded_queue (I : Interp) (steps : List MicroStep) :
    (consumeIfNeeded I steps).queue = I.queue ∨
      (consumeIfNeeded I steps).queue = I.queue.pop := by
  rw [consumeIfNeeded]
  split
  · exact selectEvent_consume_snd I.queue I.time
  · exact Or.inl rfl

theorem executeOnce_queue_shape (fuel : Nat) (I : Interp) :
    (executeOnce fuel I).fst.queue = I.queue ∨
    ∃ I2 : Interp, (I2.queue = I.queue ∨ I2.queue = I.queue.pop) ∧
      I2.queue.counter = I.queue.counter ∧
      QueueExtends I2.queue (executeOnce fuel I).fst.queue := by
  have hcq : (computeSteps { I with time := I.clock }).fst.queue = I.queue := by
    rw [computeSteps_fst]
    split <;> rfl
  simp only [executeOnce]
  split
  · exact Or.inl hcq
  · exact Or.inl hcq
  · rename_i steps hsnd
    refine Or.inr ⟨consumeIfNeeded (computeSteps { I with time := I.clock }).fst steps,
      ?_, ?_, ?_⟩
    · have := consumeIfNeeded_queue (computeSteps { I with time := I.clock }).fst steps
      rw [hcq] at this
      exact this
    · rcases consumeIfNeeded_queue (computeSteps { I with time := I.clock }).fst steps with
        h | h <;> rw [h, hcq]
      exact pop_counter I.queue
    · split
      · exact execSteps_queueExtends fuel steps _
      · split
        · exact execSteps_queueExtends fuel steps _
        · exact execSteps_queueExtends fuel steps _

/-- C6: for every macro step, internal events pushed by actions during
the step are never consumed within it: the final queue consists of the
initial queue entries (minus at most the one due event consumed at the
start of the step, before any micro step is applied) followed by the
newly pushed entries, all of which carry insertion sequence numbers at
least the initial insertion counter and hence are not among the
initially queued events.  The queue is read once at the start
(compute_steps peeks, the consumption pops) and stabilization never
polls it. -/
theorem c6_no_same_step_consumption (fuel : Nat) (I : Interp) :
    ∃ pushed : List QueueEntry,
      ((executeOnce fuel I).fst.queue.entries = I.queue.entries ++ pushed ∨
        (executeOnce fuel I).fst.queue.entries = I.queue.pop.entries ++ pushed) ∧
      ∀ en ∈ pushed, I.queue.counter ≤ en.seq := by
  rcases executeOnce_queue_shape fuel I with h | ⟨I2, hq, hcount, ⟨l, he, hc, hf⟩⟩
  · refine ⟨[], Or.inl ?_, by simp⟩
    rw [h]
    simp
  · refine ⟨l, ?_, ?_⟩
    · rcases hq with hq | hq
      · rw [hq] at he
        exact Or.inl he
      · rw [hq] at he
        exact Or.inr he
    · intro en hen
      have := hf en hen
      rw [hcount] at this
      exact this

theorem mem_if_reverse {β : Type} (b : Bool) (l : List β) (a : β) :
    a ∈ (if b then l.reverse else l) ↔ a ∈ l := by
  cases b <;> simp

theorem sortedGroupby_mem_self {α β : Type} [DecidableEq β] (key : α → β)
    (lt : β → β → Bool) (rev : Bool) (l : List α) (x : α) (hx : x ∈ l) :
    ∃ g, (key x, g) ∈ sortedGroupby key lt rev l ∧ x ∈ g := by
  refine ⟨l.filter (fun y => decide (key y = key x)), ?_, ?_⟩
  · simp only [sortedGroupby]
    apply List.mem_map_of_mem
    rw [mem_if_reverse, mem_sortedKeys]
    exact List.mem_map_of_mem _ hx
  · rw [List.mem_filter]
    exact ⟨hx, by simp⟩

theorem sortedGroupby_snd_subset {α β : Type} [DecidableEq β] (key : α → β)
    (lt : β → β → Bool) (rev : Bool) (l : List α) (p : β × List α)
    (hp : p ∈ sortedGroupby key lt rev l) : ∀ x ∈ p.snd, x ∈ l := by
  simp only [sortedGroupby] at hp
  rcases List.mem_map.mp hp with ⟨k, _, hpk⟩
  intro x hx
  rw [← hpk] at hx
  exact (List.mem_filter.mp hx).1

theorem selectFromPriorityGroups_subset (ev : Evaluator) (exposed : Option Event) :
    ∀ (groups : List (Int × List Transition)) (t1 : Transition),
      t1 ∈ selectFromPriorityGroups ev exposed groups → ∃ p ∈ groups, t1 ∈ p.snd := by
  intro groups
  induction groups with
  | nil => intro t1 h; simp [selectFromPriorityGroups] at h
  | cons p rest ih =>
    intro t1 h
    rcases p with ⟨k, g⟩
    have hunf : selectFromPriorityGroups ev exposed ((k, g) :: rest) =
        if (g.filter (guardPasses ev exposed)).isEmpty then
          selectFromPriorityGroups ev exposed rest
        else g.filter (guardPasses ev exposed) := rfl
    rw [hunf] at h
    by_cases hp : (g.filter (guardPasses ev exposed)).isEmpty = true
    · rw [if_pos hp] at h
      rcases ih t1 h with ⟨q, hq, hq2⟩
      exact ⟨q, List.mem_cons_of_mem _ hq, hq2⟩
    · rw [if_neg hp] at h
      exact ⟨(k, g), List.mem_cons_self _ _, (List.mem_filter.mp h).1⟩

theorem selectForSource_subset (ev : Evaluator) (exposed : Option Event)
    (ts : List Transition) (t1 : Transition) (h : t1 ∈ selectForSource ev exposed ts) :
    t1 ∈ ts := by
  rcases selectFromPriorityGroups_subset ev exposed _ t1 h with ⟨p, hp, hp2⟩
  exact sortedGroupby_snd_subset _ _ _ _ p hp t1 hp2

theorem selectFromPriorityGroups_ne (ev : Evaluator) (exposed : Option Event) :
    ∀ groups : List (Int × List Transition),
      (∃ p ∈ groups, ∃ t ∈ p.snd, guardPasses ev exposed t = true) →
      selectFromPriorityGroups ev exposed groups ≠ [] := by
  intro groups
  induction groups with
  | nil => intro h; rcases h with ⟨p, hp, _⟩; simp at hp
  | cons p rest ih =>
    intro h
    rcases p with ⟨k, g⟩
    have hunf : selectFromPriorityGroups ev exposed ((k, g) :: rest) =
        if (g.filter (guardPasses ev exposed)).isEmpty then
          selectFromPriorityGroups ev exposed rest
        else g.filter (guardPasses ev exposed) := rfl
    rw [hunf]
    by_cases hp : (g.filter (guardPasses ev exposed)).isEmpty = true
    · rw [if_pos hp]
      rcases h with ⟨q, hq, t, htq, hpass⟩
      rcases List.mem_cons.mp hq with hq1 | hq1
      · exfalso
        have : t ∈ g.filter (guardPasses ev exposed) := by
          rw [List.mem_filter]
          exact ⟨by rw [hq1] at htq; exact htq, hpass⟩
        rw [List.isEmpty_iff.mp hp] at this
        exact List.not_mem_nil t this
      · exact ih ⟨q, hq1, t, htq, hpass⟩
    · rw [if_neg hp]
      intro hnil
      exact hp (by rw [hnil]; rfl)

theorem selectForSource_ne (ev : Evaluator) (exposed : Option Event) (ts : List Transition)
    (h : ∃ t ∈ ts, guardPasses ev exposed t = true) :
    selectForSource ev exposed ts ≠ [] := by
  obtain ⟨t, ht, hpass⟩ := h
  obtain ⟨g, hg, htg⟩ :=
    sortedGroupby_mem_self (fun t : Transition => t.priority) intLt true ts t ht
  exact selectFromPriorityGroups_ne ev exposed _ ⟨(t.priority, g), hg, t, htg, hpass⟩

theorem processSource_prefix (sc : Statechart) (ev : Evaluator) (exposed : Option Event)
    (inf : Bool) (st : SelState) (src : String) (ts : List Transition) :
    ∃ l, (processSource sc ev exposed inf st src ts).selected = st.selected ++ l := by
  simp only [processSource]
  by_cases h1 : st.ignored.contains src = true
  · rw [if_pos h1]
    exact ⟨[], by simp⟩
  · rw [if_neg h1]
    by_cases h2 : (selectForSource ev exposed ts).isEmpty = true
    · rw [if_pos h2]
      exact ⟨[], by simp⟩
    · rw [if_neg h2]
      exact ⟨selectForSource ev exposed ts, rfl⟩

theorem processSource_id_or_ne (sc : Statechart) (ev : Evaluator) (exposed : Option Event)
    (inf : Bool) (st : SelState) (src : String) (ts : List Transition) :
    processSource sc ev exposed inf st src ts = st ∨
      (processSource sc ev exposed inf st src ts).selected ≠ [] := by
  simp only [processSource]
  by_cases h1 : st.ignored.contains src = true
  · rw [if_pos h1]
    exact Or.inl rfl
  · rw [if_neg h1]
    by_cases h2 : (selectForSource ev exposed ts).isEmpty = true
    · rw [if_pos h2]
      exact Or.inl rfl
    · rw [if_neg h2]
      refine Or.inr ?_
      show st.selected ++ selectForSource ev exposed ts ≠ []
      refine List.append_ne_nil_of_right_ne_nil _ ?_
      intro hnil
      exact h2 (by rw [hnil]; rfl)

theorem processSource_elems (sc : Statechart) (ev : Evaluator) (exposed : Option Event)
    (inf : Bool) (st : SelState) (src : String) (ts : List Transition) (t1 : Transition)
    (h : t1 ∈ (processSource sc ev exposed inf st src ts).selected) :
    t1 ∈ st.selected ∨ t1 ∈ ts := by
  simp only [processSource] at h
  by_cases h1 : st.ignored.contains src = true
  · rw [if_pos h1] at h
    exact Or.inl h
  · rw [if_neg h1] at h
    by_cases h2 : (selectForSource ev exposed ts).isEmpty = true
    · rw [if_pos h2] at h
      exact Or.inl h
    · rw [if_neg h2] at h
      rcases List.mem_append.mp h with h3 | h3
      · exact Or.inl h3
      · exact Or.inr (selectForSource_subset ev exposed ts t1 h3)

theorem processSource_ne_of_passer (sc : Statechart) (ev : Evaluator) (exposed : Option Event)
    (inf : Bool) (st : SelState) (src : String) (ts : List Transition)
    (hnig : st.ignored.contains src = false)
    (h : ∃ t ∈ ts, guardPasses ev exposed t = true) :
    (processSource sc ev exposed inf st src ts).selected ≠ [] := by
  simp only [processSource]
  rw [if_neg (by rw [hnig]; simp)]
  rw [if_neg (fun hemp => selectForSource_ne ev exposed ts h (List.isEmpty_iff.mp hemp))]
  show st.selected ++ selectForSource ev exposed ts ≠ []
  exact List.append_ne_nil_of_right_ne_nil _ (selectForSource_ne ev exposed ts h)

theorem foldlPS_prefix (sc : Statechart) (ev : Evaluator) (exposed : Option Event)
    (inf : Bool) : ∀ (groups : List (String × List Transition)) (st : SelState),
    ∃ l, (groups.foldl (fun st p => processSource sc ev exposed inf st p.fst p.snd)
        st).selected = st.selected ++ l := by
  intro groups
  induction groups with
  | nil => intro st; exact ⟨[], by simp⟩
  | cons p groups ih =>
    intro st
    simp only [List.foldl_cons]
    obtain ⟨l1, hl1⟩ := ih (processSource sc ev exposed inf st p.fst p.snd)
    obtain ⟨l0, hl0⟩ := processSource_prefix sc ev exposed inf st p.fst p.snd
    exact ⟨l0 ++ l1, by rw [hl1, hl0, List.append_assoc]⟩

theorem foldlPS_processed (sc : Statechart) (ev : Evaluator) (exposed : Option Event)
    (inf : Bool) : ∀ (groups : List (String × List Transition)) (st : SelState),
    (groups.foldl (fun st p => processSource sc ev exposed inf st p.fst p.snd)
      st).selected = [] →
    groups.foldl (fun st p => processSource sc ev exposed inf st p.fst p.snd) st = st ∧
      ∀ p ∈ groups, processSource sc ev exposed inf st p.fst p.snd = st := by
  intro groups
  induction groups with
  | nil => intro st h; exact ⟨rfl, by simp⟩
  | cons p groups ih =>
    intro st h
    simp only [List.foldl_cons] at h ⊢
    obtain ⟨l, hl⟩ := foldlPS_prefix sc ev exposed inf groups
      (processSource sc ev exposed inf st p.fst p.snd)
    rw [h] at hl
    have hps0 : (processSource sc ev exposed inf st p.fst p.snd).selected = [] :=
      (List.append_eq_nil.mp hl.symm).1
    have hid : processSource sc ev exposed inf st p.fst p.snd = st := by
      rcases processSource_id_or_ne sc ev exposed inf st p.fst p.snd with h1 | h1
      · exact h1
      · exact absurd hps0 h1
    rw [hid] at h
    obtain ⟨heq, hall⟩ := ih st h
    refine ⟨by rw [hid]; exact heq, ?_⟩
    intro q hq
    rcases List.mem_cons.mp hq with hq1 | hq1
    · rw [hq1]
      exact hid
    · exact hall q hq1

theorem foldlPS_elems (sc : Statechart) (ev : Evaluator) (exposed : Option Event)
    (inf : Bool) (amb : List Transition) :
    ∀ (groups : List (String × List Transition)) (st : SelState),
    (∀ p ∈ groups, ∀ x ∈ p.snd, x ∈ amb) →
    ∀ t1 ∈ (groups.foldl (fun st p => processSource sc ev exposed inf st p.fst p.snd)
        st).selected, t1 ∈ st.selected ∨ t1 ∈ amb := by
  intro groups
  induction groups with
  | nil => intro st _ t1 h; exact Or.inl h
  | cons p groups ih =>
    intro st hsub t1 h
    simp only [List.foldl_cons] at h
    rcases ih (processSource sc ev exposed inf st p.fst p.snd)
        (fun q hq => hsub q (List.mem_cons_of_mem _ hq)) t1 h with h1 | h1
    · rcases processSource_elems sc ev exposed inf st p.fst p.snd t1 h1 with h2 | h2
      · exact Or.inl h2
      · exact Or.inr (hsub p (List.mem_cons_self _ _) t1 h2)
    · exact Or.inr h1

theorem processDepthGroup_prefix (sc : Statechart) (ev : Evaluator) (exposed : Option Event)
    (inf : Bool) (st : SelState) (ts : List Transition) :
    ∃ l, (processDepthGroup sc ev exposed inf st ts).selected = st.selected ++ l :=
  foldlPS_prefix sc ev exposed inf _ st

theorem processDepthGroup_id (sc : Statechart) (ev : Evaluator) (exposed : Option Event)
    (inf : Bool) (st : SelState) (ts : List Transition)
    (h : (processDepthGroup sc ev exposed inf st ts).selected = []) :
    processDepthGroup sc ev exposed inf st ts = st :=
  (foldlPS_processed sc ev exposed inf _ st h).1

theorem processDepthGroup_elems (sc : Statechart) (ev : Evaluator) (exposed : Option Event)
    (inf : Bool) (st : SelState) (ts : List Transition) (t1 : Transition)
    (h : t1 ∈ (processDepthGroup sc ev exposed inf st ts).selected) :
    t1 ∈ st.selected ∨ t1 ∈ ts :=
  foldlPS_elems sc ev exposed inf ts _ st
    (fun p hp => sortedGroupby_snd_subset _ _ _ _ p hp) t1 h

theorem foldlDG_prefix (sc : Statechart) (ev : Evaluator) (exposed : Option Event)
    (inf : Bool) : ∀ (dgs : List (Int × List Transition)) (st : SelState),
    ∃ l, (dgs.foldl (fun st p => processDepthGroup sc ev exposed inf st p.snd)
        st).selected = st.selected ++ l := by
  intro dgs
  induction dgs with
  | nil => intro st; exact ⟨[], by simp⟩
  | cons p dgs ih =>
    intro st
    simp only [List.foldl_cons]
    obtain ⟨l1, hl1⟩ := ih (processDepthGroup sc ev exposed inf st p.snd)
    obtain ⟨l0, hl0⟩ := processDepthGroup_prefix sc ev exposed inf st p.snd
    exact ⟨l0 ++ l1, by rw [hl1, hl0, List.append_assoc]⟩

theorem foldlDG_processed (sc : Statechart) (ev : Evaluator) (exposed : Option Event)
    (inf : Bool) : ∀ (dgs : List (Int × List Transition)) (st : SelState),
    (dgs.foldl (fun st p => processDepthGroup sc ev exposed inf st p.snd) st).selected = [] →
    ∀ p ∈ dgs, processDepthGroup sc ev exposed inf st p.snd = st := by
  intro dgs
  induction dgs with
  | nil => intro st _ p hp; simp at hp
  | cons p dgs ih =>
    intro st h q hq
    simp only [List.foldl_cons] at h
    obtain ⟨l, hl⟩ := foldlDG_prefix sc ev exposed inf dgs
      (processDepthGroup sc ev exposed inf st p.snd)
    rw [h] at hl
    have hps0 : (processDepthGroup sc ev exposed inf st p.snd).selected = [] :=
      (List.append_eq_nil.mp hl.symm).1
    have hid := processDepthGroup_id sc ev exposed inf st p.snd hps0
    rcases List.mem_cons.mp hq with hq1 | hq1
    · rw [hq1]
      exact hid
    · rw [hid] at h
      exact ih st h q hq1

theorem foldlDG_elems (sc : Statechart) (ev : Evaluator) (exposed : Option Event)
    (inf : Bool) (amb : List Transition) :
    ∀ (dgs : List (Int × List Transition)) (st : SelState),
    (∀ p ∈ dgs, ∀ x ∈ p.snd, x ∈ amb) →
    ∀ t1 ∈ (dgs.foldl (fun st p => processDepthGroup sc ev exposed inf st p.snd)
        st).selected, t1 ∈ st.selected ∨ t1 ∈ amb := by
  intro dgs
  induction dgs with
  | nil => intro st _ t1 h; exact Or.inl h
  | cons p dgs ih =>
    intro st hsub t1 h
    simp only [List.foldl_cons] at h
    rcases ih (processDepthGroup sc ev exposed inf st p.snd)
        (fun q hq => hsub q (List.mem_cons_of_mem _ hq)) t1 h with h1 | h1
    · rcases processDepthGroup_elems sc ev exposed inf st p.snd t1 h1 with h2 | h2
      · exact Or.inl h2
      · exact Or.inr (hsub p (List.mem_cons_self _ _) t1 h2)
    · exact Or.inr h1

theorem processEventGroup_elems (sc : Statechart) (ev : Evaluator) (event : Option Event)
    (inf : Bool) (st : SelState) (hasEv : Bool) (ts : List Transition) (t1 : Transition)
    (h : t1 ∈ (processEventGroup sc ev event inf st hasEv ts).selected) :
    t1 ∈ st.selected ∨ t1 ∈ ts := by
  simp only [processEventGroup] at h
  exact foldlDG_elems sc ev _ inf ts _ st
    (fun p hp => sortedGroupby_snd_subset _ _ _ _ p hp) t1 h

theorem processEventGroup_ne (sc : Statechart) (ev : Evaluator) (event : Option Event)
    (inf : Bool) (ts : List Transition) (hasEv : Bool) (t : Transition) (ht : t ∈ ts)
    (hpass : guardPasses ev (if hasEv then event else none) t = true) :
    (processEventGroup sc ev event inf ⟨[], []⟩ hasEv ts).selected ≠ [] := by
  intro hnil
  simp only [processEventGroup] at hnil
  have hall := foldlDG_processed sc ev (if hasEv then event else none) inf _ _ hnil
  obtain ⟨dgt, hdgt, htdg⟩ := sortedGroupby_mem_self
    (fun t : Transition => (sc.depthFor t.source : Int)) intLt inf ts t ht
  have hdg := hall _ hdgt
  have hdgsel : (processDepthGroup sc ev (if hasEv then event else none) inf
      ⟨[], []⟩ dgt).selected = [] := by
    rw [hdg]
  simp only [processDepthGroup] at hdgsel
  have hallS := (foldlPS_processed sc ev (if hasEv then event else none) inf _ _ hdgsel).2
  obtain ⟨sgt, hsgt, htsg⟩ := sortedGroupby_mem_self
    (fun t : Transition => t.source) strLt false dgt t htdg
  have hps := hallS (t.source, sgt) hsgt
  have hne := processSource_ne_of_passer sc ev (if hasEv then event else none) inf
    ⟨[], []⟩ t.source sgt rfl ⟨t, htsg, hpass⟩
  rw [hps] at hne
  exact hne rfl

theorem sortedKeys_bool_shape : ∀ bs : List Bool,
    sortedKeys boolLt bs =
      (if false ∈ bs then [false] else []) ++ (if true ∈ bs then [true] else []) := by
  intro bs
  induction bs with
  | nil => rfl
  | cons b bs ih =>
    rw [sortedKeys, ih]
    cases b <;> by_cases h1 : false ∈ bs <;> by_cases h2 : true ∈ bs <;>
      simp [h1, h2, insertKeyAsc, boolLt, List.mem_cons]

theorem foldTop_skip (sc : Statechart) (ev : Evaluator) (event : Option Event) (inf : Bool) :
    ∀ (groups : List (Bool × List Transition)) (st : SelState), st.selected ≠ [] →
      groups.foldl (fun st p =>
        if st.selected.isEmpty then processEventGroup sc ev event inf st p.fst p.snd
        else st) st = st := by
  intro groups
  induction groups with
  | nil => intro st _; rfl
  | cons p groups ih =>
    intro st hne
    simp only [List.foldl_cons]
    have hie : st.selected.isEmpty = false := by
      rcases hsel : st.selected with _ | ⟨a, l⟩
      · exact absurd hsel hne
      · rfl
    rw [if_neg (by rw [hie]; simp)]
    exact ih st hne

theorem selectTop_eventless (sc : Statechart) (ev : Evaluator) (event : Option Event)
    (inf : Bool) (C : List Transition) (t : Transition) (ht : t ∈ C)
    (hev : t.event = none) (hpass : guardPasses ev none t = true) :
    ((sortedGroupby (fun t : Transition => t.event.isSome) boolLt false C).foldl
        (fun st p => if st.selected.isEmpty then
          processEventGroup sc ev event inf st p.fst p.snd else st)
        (⟨[], []⟩ : SelState)).selected ≠ [] ∧
    ∀ t1 ∈ ((sortedGroupby (fun t : Transition => t.event.isSome) boolLt false C).foldl
        (fun st p => if st.selected.isEmpty then
          processEventGroup sc ev event inf st p.fst p.snd else st)
        (⟨[], []⟩ : SelState)).selected, t1.event = none := by
  have hfmem : false ∈ C.map (fun t => t.event.isSome) :=
    List.mem_map.mpr ⟨t, ht, by rw [hev]; rfl⟩
  have hkeys : sortedKeys boolLt (C.map (fun t => t.event.isSome)) =
      false :: (if true ∈ C.map (fun t => t.event.isSome) then [true] else []) := by
    rw [sortedKeys_bool_shape, if_pos hfmem]
    rfl
  have hgb : sortedGroupby (fun t : Transition => t.event.isSome) boolLt false C =
      (false, C.filter (fun x => decide (x.event.isSome = false))) ::
        (if true ∈ C.map (fun t => t.event.isSome) then [true] else []).map
          (fun k => (k, C.filter (fun x => decide (x.event.isSome = k)))) := by
    simp only [sortedGroupby]
    rw [hkeys]
    simp
  have hgF : t ∈ C.filter (fun x => decide (x.event.isSome = false)) := by
    rw [List.mem_filter]
    exact ⟨ht, by rw [hev]; simp⟩
  have hne := processEventGroup_ne sc ev event inf
    (C.filter (fun x => decide (x.event.isSome = false))) false t hgF hpass
  have hskip := foldTop_skip sc ev event inf
    ((if true ∈ C.map (fun t => t.event.isSome) then [true] else []).map
      (fun k => (k, C.filter (fun x => decide (x.event.isSome = k)))))
    (processEventGroup sc ev event inf ⟨[], []⟩ false
      (C.filter (fun x => decide (x.event.isSome = false)))) hne
  rw [hgb, List.foldl_cons, if_pos (by rfl : (⟨[], []⟩ : SelState).selected.isEmpty = true),
    hskip]
  refine ⟨hne, ?_⟩
  intro t1 ht1
  rcases processEventGroup_elems sc ev event inf ⟨[], []⟩ false _ t1 ht1 with h1 | h1
  · simp at h1
  · have h2 := (List.mem_filter.mp h1).2
    simp only [decide_eq_true_eq] at h2
    rcases hte : t1.event with _ | e1
    · rfl
    · rw [hte] at h2
      simp at h2

theorem selectTransitions_eventless_spec (sc : Statechart) (ev : Evaluator)
    (event : Option Event) (states : List String) (inf : Bool)
    (h : ∃ t ∈ sc.transitions, states.contains t.source = true ∧ t.event = none ∧
      guardPasses ev none t = true) :
    selectTransitions sc ev event states true inf ≠ [] ∧
    ∀ t1 ∈ selectTransitions sc ev event states true inf, t1.event = none := by
  obtain ⟨t, ht, hcont, hev, hpass⟩ := h
  have hmem : t.source ∈ states := by
    simpa using hcont
  have htc : t ∈ sc.transitions.filter
      (fun t => states.contains t.source && transitionTriggered event t) := by
    rw [List.mem_filter]
    refine ⟨ht, ?_⟩
    simp [transitionTriggered, hev, hmem]
  exact selectTop_eventless sc ev event inf _ t htc hev hpass

theorem sortTransitions_ok_perm (sc : Statechart) (ts l : List Transition)
    (h : sortTransitions sc ts = .ok l) : l.Perm ts := by
  rw [sortTransitions] at h
  by_cases hlen : 1 < ts.length
  · rw [if_pos hlen] at h
    rcases hfs : (pairs ts).findSome? (fun p => checkPair sc p.fst p.snd) with _ | e <;>
      rw [hfs] at h
    · simp only [Except.ok.injEq] at h
      rw [← h]
      exact sortBy_perm _ _
    · exact absurd h (by simp)
  · rw [if_neg hlen] at h
    simp only [Except.ok.injEq] at h
    rw [← h]

theorem createStepForTransition_event (sc : Statechart) (cfg : List String)
    (ev1 : Option Event) (t : Transition) :
    (createStepForTransition sc cfg ev1 t).event = ev1 := by
  simp only [createStepForTransition]
  split <;> rfl

theorem computeSteps_eventless (I : Interp) (hInit : I.initialized = true)
    (hEl : ∃ t ∈ I.statechart.transitions, I.configuration.contains t.source = true ∧
      t.event = none ∧ guardPasses I.evaluator none t = true) :
    ∀ steps, (computeSteps I).snd = .ok (some steps) →
      ∃ s0 srest, steps = s0 :: srest ∧ s0.event = none := by
  intro steps hsteps
  have hspec := selectTransitions_eventless_spec I.statechart I.evaluator
    (selectEvent I.queue I.time false).fst I.configuration true hEl
  simp only [computeSteps] at hsteps
  rw [if_pos hInit] at hsteps
  by_cases hemp : (selectTransitions I.statechart I.evaluator
      (selectEvent I.queue I.time false).fst I.configuration true true).isEmpty = true
  · exact absurd (List.isEmpty_iff.mp hemp) hspec.1
  · rw [if_neg hemp] at hsteps
    rcases hst : sortTransitions I.statechart (selectTransitions I.statechart I.evaluator
        (selectEvent I.queue I.time false).fst I.configuration true true) with e | sorted
    · rw [hst] at hsteps
      exact absurd hsteps (by simp)
    · rw [hst] at hsteps
      have hperm := sortTransitions_ok_perm _ _ _ hst
      have hsorted_ne : sorted ≠ [] := by
        intro hnil
        rw [hnil] at hperm
        exact hspec.1 (List.perm_nil.mp hperm.symm)
      rcases hsorted : sorted with _ | ⟨t0, trest⟩
      · exact absurd hsorted hsorted_ne
      · have ht0 : t0 ∈ selectTransitions I.statechart I.evaluator
            (selectEvent I.queue I.time false).fst I.configuration true true := by
          refine hperm.mem_iff.mp ?_
          rw [hsorted]
          exact List.mem_cons_self _ _
        have ht0ev : t0.event = none := hspec.2 t0 ht0
        rw [hsorted] at hsteps
        simp only [ht0ev, Option.isNone_none, if_true, Except.ok.injEq,
          Option.some.injEq] at hsteps
        refine ⟨createStepForTransition I.statechart I.configuration none t0,
          trest.map (createStepForTransition I.statechart I.configuration none), ?_, ?_⟩
        · rw [← hsteps]
          rfl
        · exact createStepForTransition_event _ _ _ _

theorem consumeIfNeeded_eventless (I : Interp) (steps : List MicroStep) (s0 : MicroStep)
    (srest : List MicroStep) (hs : steps = s0 :: srest) (he : s0.event = none) :
    consumeIfNeeded I steps = I := by
  rw [consumeIfNeeded, hs]
  simp [he]

/-- C1: for every initialized interpreter, if some eventless transition
whose source is in the current configuration has a passing guard, then
only eventless transitions are selected by _select_transitions (event
triggered candidates are discarded), the first micro step computed by
_compute_steps carries no event, and no event is popped from the event
queue during the macro step run by execute_once (the final queue
extends the initial queue in place). -/
theorem c1_eventless_priority (fuel : Nat) (I : Interp)
    (hInit : I.initialized = true)
    (hEl : ∃ t ∈ I.statechart.transitions, I.configuration.contains t.source = true ∧
      t.event = none ∧ guardPasses I.evaluator none t = true) :
    (∀ t1 ∈ selectTransitions I.statechart I.evaluator
        (selectEvent I.queue I.clock false).fst I.configuration true true, t1.event = none)
    ∧ (∀ steps, (computeSteps { I with time := I.clock }).snd = .ok (some steps) →
        ∃ s0 srest, steps = s0 :: srest ∧ s0.event = none)
    ∧ QueueExtends I.queue (executeOnce fuel I).fst.queue := by
  have hspec := selectTransitions_eventless_spec I.statechart I.evaluator
    (selectEvent I.queue I.clock false).fst I.configuration true hEl
  have hcs := computeSteps_eventless { I with time := I.clock } hInit hEl
  have hcq : (computeSteps { I with time := I.clock }).fst.queue = I.queue := by
    rw [computeSteps_fst]
    split <;> rfl
  refine ⟨hspec.2, hcs, ?_⟩
  simp only [executeOnce]
  split
  · show QueueExtends I.queue (computeSteps { I with time := I.clock }).fst.queue
    rw [hcq]
    exact queueExtends_refl _
  · show QueueExtends I.queue (computeSteps { I with time := I.clock }).fst.queue
    rw [hcq]
    exact queueExtends_refl _
  · rename_i steps hsnd
    obtain ⟨s0, srest, hsteps0, hev0⟩ := hcs steps hsnd
    have hcons : consumeIfNeeded (computeSteps { I with time := I.clock }).fst steps =
        (computeSteps { I with time := I.clock }).fst :=
      consumeIfNeeded_eventless _ _ _ _ hsteps0 hev0
    have hext := execSteps_queueExtends fuel steps
      (consumeIfNeeded (computeSteps { I with time := I.clock }).fst steps)
    have hq2 : (consumeIfNeeded (computeSteps { I with time := I.clock }).fst steps).queue =
        I.queue := by
      rw [hcons, hcq]
    rw [hq2] at hext
    split
    · exact hext
    · split
      · exact hext
      · exact hext

/-- C1 witness: the witness chart has an eventless transition out of
the active state a whose guard passes, so only the eventless
transition is selected, the first micro step carries no event, and the
queued external event x stays in the queue. -/
theorem c1_witness :
    (∀ t1 ∈ selectTransitions interpW.statechart interpW.evaluator
        (selectEvent interpW.queue interpW.clock false).fst interpW.configuration true true,
      t1.event = none)
    ∧ (∀ steps, (computeSteps { interpW with time := interpW.clock }).snd =
          .ok (some steps) → ∃ s0 srest, steps = s0 :: srest ∧ s0.event = none)
    ∧ QueueExtends interpW.queue (executeOnce 3 interpW).fst.queue :=
  c1_eventless_priority 3 interpW rfl ⟨tEl, by decide, by decide, rfl, by decide⟩

theorem stabilize_stable (fuel : Nat) (I : Interp)
    (h : createStabilizationStep I.statechart I.memory I.configuration = none) :
    stabilize fuel I = (I, .ok []) := by
  cases fuel with
  | zero => rfl
  | succ n =>
    rw [stabilize, h]

theorem checkStateInvariants_ignore (I : Interp) (h : I.ignoreContract = true)
    (ev : Option Event) : ∀ l : List String, checkStateInvariants I ev l = none := by
  intro l
  induction l with
  | nil => rfl
  | cons n rest ih =>
    rw [checkStateInvariants, contractCheck, if_pos h]
    exact ih

/-- C9: for every initialized interpreter at a stable configuration
with contracts ignored, when an event is due but triggers no
transition, execute_once does not return absent: it returns a macro
step holding exactly one micro step that carries the event with no
transition and no exited or entered states, the event is popped from
the queue, and the configuration is unchanged. -/
theorem c9_due_event_consumed (fuel : Nat) (I : Interp) (en : QueueEntry)
    (hInit : I.initialized = true)
    (hIgn : I.ignoreContract = true)
    (hfirst : I.queue.firstEntry? = some en)
    (hdue : en.time ≤ I.clock)
    (hsel : selectTransitions I.statechart I.evaluator (some en.event)
      I.configuration true true = [])
    (hstable : createStabilizationStep I.statechart I.memory I.configuration = none) :
    (executeOnce fuel I).snd =
      .ok (some { time := I.clock, steps := [microStep (some en.event) none [] []] })
    ∧ (executeOnce fuel I).fst.queue = I.queue.pop
    ∧ (executeOnce fuel I).fst.configuration = I.configuration := by
  have hev : selectEvent I.queue I.clock false = (some en.event, I.queue) := by
    rw [selectEvent, hfirst]
    simp [hdue]
  have hev2 : selectEvent I.queue I.clock true = (some en.event, I.queue.pop) := by
    rw [selectEvent, hfirst]
    simp [hdue]
  have h1 : computeSteps { I with time := I.clock } =
      ({ I with time := I.clock }, .ok (some [microStep (some en.event) none [] []])) := by
    simp only [computeSteps]
    rw [if_pos hInit]
    simp only [hev, hsel]
    rfl
  have h2 : consumeIfNeeded { I with time := I.clock }
      [microStep (some en.event) none [] []] =
      { I with time := I.clock, queue := I.queue.pop } := by
    rw [consumeIfNeeded, if_pos (by rfl)]
    simp only [hev2]
  have happly : applyStep { I with time := I.clock, queue := I.queue.pop }
      (microStep (some en.event) none [] []) =
      ({ I with time := I.clock, queue := I.queue.pop },
        .ok (microStep (some en.event) none [] [])) := rfl
  have hstab : stabilize fuel { I with time := I.clock, queue := I.queue.pop } =
      ({ I with time := I.clock, queue := I.queue.pop }, .ok []) :=
    stabilize_stable fuel _ hstable
  have h3 : execSteps fuel { I with time := I.clock, queue := I.queue.pop }
      [microStep (some en.event) none [] []] =
      ({ I with time := I.clock, queue := I.queue.pop },
        .ok [microStep (some en.event) none [] []]) := by
    simp only [execSteps, happly, hstab, List.append_nil]
  have h4 := checkStateInvariants_ignore { I with time := I.clock, queue := I.queue.pop }
    hIgn
  refine ⟨?_, ?_, ?_⟩ <;>
    simp only [executeOnce, h1, h2, h3, h4]

/-- C9 witness: the transition-free chart with a due external event x
queued: execute_once returns a macro step holding the single empty
event-consuming micro step, pops x, and leaves the configuration
unchanged. -/
theorem c9_witness :
    (executeOnce 5 interp9).snd =
      .ok (some (MacroStep.mk interp9.clock
        [microStep (some ⟨"x", EventKind.external⟩) none [] []]))
    ∧ (executeOnce 5 interp9).fst.queue = interp9.queue.pop
    ∧ (executeOnce 5 interp9).fst.configuration = interp9.configuration :=
  c9_due_event_consumed 5 interp9 ⟨0, 0, ⟨"x", .external⟩⟩ rfl rfl (by decide) (by decide)
    (by decide) (by decide)

end Sismic
